import Mathlib

/-!
Shallow embedding of the round-trip trade reconstruction and performance
analytics of the Alpaca-Portfolio repository.

Source of truth:
* `src/pages/Analytics.jsx` — `roundTrips` (FIFO matcher), `metrics`,
  `dailyPL`, `cumulativePL`.
* `src/pages/Positions.jsx` — the same FIFO matcher plus per-symbol
  statistics accumulation inside `TradeHistory`.

Modelling conventions:
* JavaScript numbers are modelled by `JSNum`: exact rationals for finite
  values (binary floating-point rounding is idealised away; the claims are
  about the algorithm and its sentinel values, not rounding), plus the
  IEEE special values `Infinity`, `-Infinity` and `NaN`, which the source
  can produce via `parseFloat` on malformed input and via division by zero.
* An order's `filled_qty` / `filled_avg_price` fields are stored after
  `parseFloat`: a malformed (non-numeric or missing) field is `JSNum.nan`,
  exactly what `parseFloat` returns on such input.
* Timestamps (`filled_at`, taken through `new Date(...)` only for
  comparison) are modelled as integers (epoch seconds); the calendar day
  of a timestamp (`format(parseISO(d), 'yyyy-MM-dd')`) is its floor
  division by 86400.  The `'yyyy-MM-dd'` keys sort lexicographically in
  exactly chronological order, so day keys are modelled by the day number.
* JavaScript `Array.prototype.sort` is stable (ES2019), and object /
  `Map` keys iterate in insertion order; both are modelled faithfully.
-/

/-- A JavaScript number as the matcher sees it: a finite value (exact
rational), `Infinity`, `-Infinity`, or `NaN`. -/
inductive JSNum where
  | num (q : ℚ)
  | posInf
  | negInf
  | nan
deriving DecidableEq, Repr

namespace JSNum

/-- JS unary minus. -/
def jneg : JSNum → JSNum
  | num q => num (-q)
  | posInf => negInf
  | negInf => posInf
  | nan => nan

/-- JS addition. -/
def jadd : JSNum → JSNum → JSNum
  | num a, num b => num (a + b)
  | nan, _ => nan
  | _, nan => nan
  | posInf, negInf => nan
  | negInf, posInf => nan
  | posInf, _ => posInf
  | _, posInf => posInf
  | negInf, _ => negInf
  | _, negInf => negInf

/-- JS subtraction. -/
def jsub (a b : JSNum) : JSNum := jadd a (jneg b)

/-- JS multiplication. -/
def jmul : JSNum → JSNum → JSNum
  | num a, num b => num (a * b)
  | nan, _ => nan
  | _, nan => nan
  | posInf, posInf => posInf
  | posInf, negInf => negInf
  | negInf, posInf => negInf
  | negInf, negInf => posInf
  | posInf, num b => if 0 < b then posInf else if b < 0 then negInf else nan
  | num a, posInf => if 0 < a then posInf else if a < 0 then negInf else nan
  | negInf, num b => if 0 < b then negInf else if b < 0 then posInf else nan
  | num a, negInf => if 0 < a then negInf else if a < 0 then posInf else nan

/-- JS division.  Finite / 0 gives a signed infinity (or `NaN` for 0 / 0),
never an error: this is the behaviour of the unguarded divisions in the
source. -/
def jdiv : JSNum → JSNum → JSNum
  | num a, num b =>
      if b = 0 then (if 0 < a then posInf else if a < 0 then negInf else nan)
      else num (a / b)
  | nan, _ => nan
  | _, nan => nan
  | posInf, posInf => nan
  | posInf, negInf => nan
  | negInf, posInf => nan
  | negInf, negInf => nan
  | posInf, num b => if 0 ≤ b then posInf else negInf
  | negInf, num b => if 0 ≤ b then negInf else posInf
  | num _, posInf => num 0
  | num _, negInf => num 0

/-- JS `<` (any comparison with `NaN` is false). -/
def jltB : JSNum → JSNum → Bool
  | num a, num b => a < b
  | nan, _ => false
  | _, nan => false
  | negInf, negInf => false
  | negInf, _ => true
  | _, negInf => false
  | posInf, _ => false
  | num _, posInf => true

/-- JS `<=` (any comparison with `NaN` is false). -/
def jleB : JSNum → JSNum → Bool
  | num a, num b => a ≤ b
  | nan, _ => false
  | _, nan => false
  | negInf, _ => true
  | _, negInf => false
  | _, posInf => true
  | posInf, num _ => false

/-- JS `>`. -/
def jgtB (a b : JSNum) : Bool := jltB b a

/-- JS `>=`. -/
def jgeB (a b : JSNum) : Bool := jleB b a

/-- `Math.min` (returns `NaN` if either argument is `NaN`). -/
def jmin (a b : JSNum) : JSNum :=
  if a = nan ∨ b = nan then nan else if jleB a b then a else b

/-- `Math.abs`. -/
def jabs : JSNum → JSNum
  | num q => num |q|
  | posInf => posInf
  | negInf => posInf
  | nan => nan

/-- JS `v || 0` applied to a number: the falsy numbers are `0`, `-0` and
`NaN`, so `NaN` becomes `0` and everything else (including `0` itself) is
unchanged. -/
def jOrZero : JSNum → JSNum
  | nan => num 0
  | v => v

/-- The rational carried by a finite JS number (junk value `0` on the
non-finite values; the theorems only apply it to finite values). -/
def qval : JSNum → ℚ
  | num q => q
  | _ => 0

end JSNum

open JSNum

/-- `arr.reduce((sum, x) => sum + x, 0)` on a list of JS numbers. -/
def jsum (l : List JSNum) : JSNum := l.foldl jadd (num 0)

/-- A brokerage order as consumed by the matcher.  The numeric fields hold
the result of `parseFloat(order.filled_qty)` / `parseFloat(order.filled_avg_price)`:
`JSNum.nan` models a non-numeric or missing field. -/
structure Order where
  symbol : String
  side : String
  filled_qty : JSNum
  filled_avg_price : JSNum
  filled_at : ℤ
  status : String
deriving DecidableEq, Repr

/-- An open buy lot in the per-symbol FIFO queue
(`buyQueue.push({ qty, price, date: order.filled_at })`). -/
structure Lot where
  qty : JSNum
  price : JSNum
  date : ℤ
deriving DecidableEq, Repr

/-- One emitted round trip (the object pushed onto `allRoundTrips` in
`Analytics.jsx`; the `Positions.jsx` copy lacks only `cost`/`revenue`). -/
structure Trip where
  symbol : String
  buyPrice : JSNum
  sellPrice : JSNum
  qty : JSNum
  pl : JSNum
  plPercent : JSNum
  cost : JSNum
  revenue : JSNum
  buyDate : ℤ
  sellDate : ℤ
deriving DecidableEq, Repr

/-- Per-symbol matcher state: the FIFO queue of open lots and the trips
emitted so far (in emission order). -/
structure MatchState where
  buyQueue : List Lot
  trips : List Trip
deriving DecidableEq, Repr

/-- The inner `while (sellQty > 0 && buyQueue.length > 0)` loop of the
matcher, with an explicit fuel argument (the loop pops a lot on almost
every iteration; `queue.length + 3` fuel is always sufficient, see
`processOrder`). Returns the remaining queue and the emitted trips in
emission order. -/
def sellMatch (sym : String) (price : JSNum) (date : ℤ) :
    ℕ → JSNum → List Lot → List Lot × List Trip
  | _, _, [] => ([], [])
  | 0, _, queue => (queue, [])
  | fuel + 1, sellQty, buy :: rest =>
    if jgtB sellQty (num 0) then
      let matchQty := jmin sellQty buy.qty
      let pl := jmul (jsub price buy.price) matchQty
      let trip : Trip :=
        { symbol := sym
          buyPrice := buy.price
          sellPrice := price
          qty := matchQty
          pl := pl
          plPercent := jmul (jdiv (jsub price buy.price) buy.price) (num 100)
          cost := jmul buy.price matchQty
          revenue := jmul price matchQty
          buyDate := buy.date
          sellDate := date }
      let newBuyQty := jsub buy.qty matchQty
      let newSellQty := jsub sellQty matchQty
      if jleB newBuyQty (num 0) then
        let r := sellMatch sym price date fuel newSellQty rest
        (r.1, trip :: r.2)
      else
        let r := sellMatch sym price date fuel newSellQty ({ buy with qty := newBuyQty } :: rest)
        (r.1, trip :: r.2)
    else (buy :: rest, [])

/-- One step of the per-symbol `sorted.forEach(order => ...)` loop:
a buy pushes a lot, a sell against a non-empty queue runs the FIFO match,
anything else (including a sell against an empty queue) is a no-op. -/
def processOrder (st : MatchState) (o : Order) : MatchState :=
  if o.side = "buy" then
    { st with
      buyQueue := st.buyQueue ++
        [{ qty := o.filled_qty, price := o.filled_avg_price, date := o.filled_at }] }
  else if o.side = "sell" ∧ st.buyQueue ≠ [] then
    let r := sellMatch o.symbol o.filled_avg_price o.filled_at
      (st.buyQueue.length + 3) o.filled_qty st.buyQueue
    { buyQueue := r.1, trips := st.trips ++ r.2 }
  else st

/-- Stable insertion of `x` into `l`: `x` goes before the first element
that is not strictly below it. -/
def insertSorted {α : Type} (lt : α → α → Bool) (x : α) : List α → List α
  | [] => [x]
  | y :: ys => if lt y x then y :: insertSorted lt x ys else x :: y :: ys

/-- A stable sort (the semantics of JS `Array.prototype.sort` with a
consistent comparator: ascending w.r.t. `lt`, ties keep input order). -/
def stableSort {α : Type} (lt : α → α → Bool) (l : List α) : List α :=
  l.foldr (insertSorted lt) []

/-- One step of building `ordersBySymbol`: JS object keys are kept in
insertion (first-occurrence) order, and each group keeps input order. -/
def addToGroups (gs : List (String × List Order)) (o : Order) :
    List (String × List Order) :=
  match gs with
  | [] => [(o.symbol, [o])]
  | (s, os) :: rest =>
    if s = o.symbol then (s, os ++ [o]) :: rest
    else (s, os) :: addToGroups rest o

/-- `ordersBySymbol`: filter to `status === 'filled'`, then group by
symbol in first-occurrence key order. -/
def ordersBySymbol (orders : List Order) : List (String × List Order) :=
  (orders.filter fun o => decide (o.status = "filled")).foldl addToGroups []

/-- Per-symbol sort: `symbolOrders.sort((a, b) => new Date(a.filled_at) - new Date(b.filled_at))`. -/
def sortByFilledAt (os : List Order) : List Order :=
  stableSort (fun a b => decide (a.filled_at < b.filled_at)) os

/-- Process one symbol's orders: sort by fill time, then run the FIFO
loop from the empty state. -/
def processSymbolOrders (os : List Order) : MatchState :=
  (sortByFilledAt os).foldl processOrder ⟨[], []⟩

/-- The `roundTrips` memo of `Analytics.jsx`: group the filled orders by
symbol, FIFO-match each symbol, concatenate all emitted trips in symbol
group order, and sort the result ascending by `sellDate` (stable). -/
def roundTrips (orders : List Order) : List Trip :=
  let groups := ordersBySymbol orders
  let allTrips := groups.foldl (fun acc g => acc ++ (processSymbolOrders g.2).trips) []
  stableSort (fun a b => decide (a.sellDate < b.sellDate)) allTrips

/-- Per-symbol statistics as accumulated by `TradeHistory` in
`Positions.jsx` (`realizedPL += pl`, `winCount++` on `pl >= 0`,
`lossCount++` on `pl < 0`), expressed as a fold over the trips the loop
emitted for that symbol — the loop updates the counters exactly once per
emitted trip, in emission order. -/
structure SymbolStats where
  realizedPL : JSNum
  trades : ℕ
  winCount : ℕ
  lossCount : ℕ
  winRate : JSNum
deriving DecidableEq, Repr

def symbolStatsOf (ts : List Trip) : SymbolStats :=
  let winCount := (ts.filter fun t => jgeB t.pl (num 0)).length
  let lossCount := (ts.filter fun t => jltB t.pl (num 0)).length
  { realizedPL := jsum (ts.map Trip.pl)
    trades := winCount + lossCount
    winCount := winCount
    lossCount := lossCount
    winRate :=
      if winCount + lossCount > 0 then
        num (((winCount : ℚ) / ((winCount : ℚ) + (lossCount : ℚ))) * 100)
      else num 0 }

/-- The `metrics` memo of `Analytics.jsx`. -/
structure Metrics where
  totalTrades : ℕ
  winners : ℕ
  losers : ℕ
  winRate : JSNum
  totalPL : JSNum
  avgWin : JSNum
  avgLoss : JSNum
  avgWinPercent : JSNum
  avgLossPercent : JSNum
  profitFactor : JSNum
  largestWin : Option Trip
  largestLoss : Option Trip
  expectancy : JSNum
deriving DecidableEq, Repr

def metrics (rts : List Trip) : Metrics :=
  if rts = [] then
    { totalTrades := 0, winners := 0, losers := 0, winRate := num 0, totalPL := num 0
      avgWin := num 0, avgLoss := num 0, avgWinPercent := num 0, avgLossPercent := num 0
      profitFactor := num 0, largestWin := none, largestLoss := none, expectancy := num 0 }
  else
    let winners := rts.filter fun rt => jgeB rt.pl (num 0)
    let losers := rts.filter fun rt => jltB rt.pl (num 0)
    let totalWins := jsum (winners.map Trip.pl)
    let totalLosses := jabs (jsum (losers.map Trip.pl))
    let avgWin := if winners.length > 0 then jdiv totalWins (num (winners.length : ℚ)) else num 0
    let avgLoss := if losers.length > 0 then jdiv totalLosses (num (losers.length : ℚ)) else num 0
    let avgWinPercent :=
      if winners.length > 0 then
        jdiv (jsum (winners.map Trip.plPercent)) (num (winners.length : ℚ))
      else num 0
    let avgLossPercent :=
      if losers.length > 0 then
        jabs (jdiv (jsum (losers.map Trip.plPercent)) (num (losers.length : ℚ)))
      else num 0
    let sortedByPL := stableSort (fun a b => jltB b.pl a.pl) rts
    let winRate :=
      if rts.length > 0 then num (((winners.length : ℚ) / (rts.length : ℚ)) * 100)
      else num 0
    let profitFactor :=
      if jgtB totalLosses (num 0) then jdiv totalWins totalLosses
      else if jgtB totalWins (num 0) then posInf
      else num 0
    let expectancy :=
      if rts.length > 0 then
        jsub (jmul (jdiv winRate (num 100)) avgWin)
          (jmul (jdiv (jsub (num 100) winRate) (num 100)) avgLoss)
      else num 0
    { totalTrades := rts.length
      winners := winners.length
      losers := losers.length
      winRate := winRate
      totalPL := jsum (rts.map Trip.pl)
      avgWin := avgWin
      avgLoss := avgLoss
      avgWinPercent := avgWinPercent
      avgLossPercent := avgLossPercent
      profitFactor := profitFactor
      largestWin := sortedByPL.head?
      largestLoss := sortedByPL.getLast?
      expectancy := expectancy }

/-- Calendar day of an epoch-second timestamp (the
`format(parseISO(d), 'yyyy-MM-dd')` key, as a day number). -/
def dayOf (t : ℤ) : ℤ := t.fdiv 86400

/-- `const current = dailyMap.get(k) || 0; dailyMap.set(k, current + v)`:
JS `Map.set` keeps the position of an existing key and appends a new one. -/
def insertAdd (m : List (ℤ × JSNum)) (k : ℤ) (v : JSNum) : List (ℤ × JSNum) :=
  match m with
  | [] => [(k, jadd (num 0) v)]
  | (k', v') :: rest =>
    if k' = k then (k', jadd (jOrZero v') v) :: rest
    else (k', v') :: insertAdd rest k v

/-- `dailyMap.get(k) || 0`. -/
def mapGetOr0 (m : List (ℤ × JSNum)) (k : ℤ) : JSNum :=
  match m.lookup k with
  | some v => jOrZero v
  | none => num 0

/-- One entry of the `dailyPL` series (its `date` label is just a
formatting of the day, so the day number stands for it). -/
structure DayPL where
  day : ℤ
  pl : JSNum
deriving DecidableEq, Repr

/-- `eachDayOfInterval({ start, end })`: every calendar day from `s` to
`e` inclusive. -/
def eachDay (s e : ℤ) : List ℤ :=
  (List.range ((e - s).toNat + 1)).map fun i : ℕ => s + (i : ℤ)

def buildDailyMap (rts : List Trip) : List (ℤ × JSNum) :=
  rts.foldl (fun m rt => insertAdd m (dayOf rt.sellDate) rt.pl) []

/-- The body of `dailyPL` after the day keys have been collected and
sorted: one entry for each day from the first to the last sorted key,
looked up in the daily map (`dailyMap.get(dateKey) || 0`). -/
def dailyFromDates : List Trip → List ℤ → List DayPL
  | _, [] => []
  | rts, d0 :: rest =>
    (eachDay d0 ((d0 :: rest).getLast (List.cons_ne_nil d0 rest))).map
      fun d => { day := d, pl := mapGetOr0 (buildDailyMap rts) d }

/-- The `dailyPL` memo of `Analytics.jsx`: accumulate P/L per sell day,
sort the day keys, then emit one entry per day of the inclusive range,
`0` for days absent from the map. -/
def dailyPL (rts : List Trip) : List DayPL :=
  if rts = [] then []
  else dailyFromDates rts
    (stableSort (fun a b => decide (a < b)) ((buildDailyMap rts).map Prod.fst))

/-- One entry of the `cumulativePL` series. -/
structure CumPL where
  day : ℤ
  cumulative : JSNum
deriving DecidableEq, Repr

/-- The running-sum map of `cumulativePL` (`cumulative += day.pl`). -/
def cumScan (c : JSNum) : List DayPL → List CumPL
  | [] => []
  | d :: ds =>
    let c' := jadd c d.pl
    { day := d.day, cumulative := c' } :: cumScan c' ds

/-- The `cumulativePL` memo of `Analytics.jsx`. -/
def cumulativePL (daily : List DayPL) : List CumPL :=
  if daily = [] then [] else cumScan (num 0) daily

/-! ### Generic facts about the stable sort -/

theorem mem_insertSorted {α : Type} (lt : α → α → Bool) (x a : α) :
    ∀ l : List α, a ∈ insertSorted lt x l ↔ a = x ∨ a ∈ l
  | [] => by simp [insertSorted]
  | y :: ys => by
    simp only [insertSorted]
    cases h : lt y x
    · simp only [Bool.false_eq_true, if_false, List.mem_cons]
    · simp only [if_true, List.mem_cons, mem_insertSorted lt x a ys]
      tauto

theorem insertSorted_pairwise {α : Type} (key : α → ℤ) (x : α) :
    ∀ l : List α, (l.Pairwise fun a b => key a ≤ key b) →
      (insertSorted (fun a b => decide (key a < key b)) x l).Pairwise
        fun a b => key a ≤ key b
  | [], _ => by simp [insertSorted]
  | y :: ys, h => by
    rcases List.pairwise_cons.mp h with ⟨hy, hys⟩
    simp only [insertSorted]
    by_cases hlt : key y < key x
    · simp only [decide_eq_true hlt, if_true]
      refine List.pairwise_cons.mpr ⟨?_, insertSorted_pairwise key x ys hys⟩
      intro b hb
      rcases (mem_insertSorted _ x b ys).mp hb with rfl | hb
      · exact le_of_lt hlt
      · exact hy b hb
    · simp only [decide_eq_false hlt, Bool.false_eq_true, if_false]
      have hxy : key x ≤ key y := le_of_not_lt hlt
      refine List.pairwise_cons.mpr ⟨?_, h⟩
      intro b hb
      rcases List.mem_cons.mp hb with rfl | hb
      · exact hxy
      · exact hxy.trans (hy b hb)

theorem stableSort_pairwise {α : Type} (key : α → ℤ) (l : List α) :
    (stableSort (fun a b => decide (key a < key b)) l).Pairwise
      fun a b => key a ≤ key b := by
  induction l with
  | nil => simp [stableSort]
  | cons a l ih => exact insertSorted_pairwise key a _ ih

theorem insertSorted_perm {α : Type} (lt : α → α → Bool) (x : α) :
    ∀ l : List α, List.Perm (insertSorted lt x l) (x :: l)
  | [] => List.Perm.refl _
  | y :: ys => by
    simp only [insertSorted]
    cases h : lt y x
    · simp
    · simp only [if_true]
      exact ((insertSorted_perm lt x ys).cons y).trans (List.Perm.swap x y ys)

theorem stableSort_perm {α : Type} (lt : α → α → Bool) (l : List α) :
    List.Perm (stableSort lt l) l := by
  induction l with
  | nil => exact List.Perm.refl _
  | cons a l ih => exact (insertSorted_perm lt a _).trans (ih.cons a)

/-! ### Concrete inputs for the worked examples and failing inputs -/

/-- The three orders of the worked FIFO example: buy 10@100 at time 1,
buy 5@110 at time 2, sell 12@120 at time 3, all on one symbol. -/
def exOrders : List Order :=
  [ { symbol := "AAPL", side := "buy", filled_qty := num 10,
      filled_avg_price := num 100, filled_at := 1, status := "filled" },
    { symbol := "AAPL", side := "buy", filled_qty := num 5,
      filled_avg_price := num 110, filled_at := 2, status := "filled" },
    { symbol := "AAPL", side := "sell", filled_qty := num 12,
      filled_avg_price := num 120, filled_at := 3, status := "filled" } ]

/-- C1: on buy 10@100 (T1), buy 5@110 (T2), sell 12@120 (T3) for one
symbol, the matcher returns exactly two round trips, in order
(qty 10, buy 100, sell 120, P/L 200) then (qty 2, buy 110, sell 120,
P/L 20), and the per-symbol FIFO queue ends with a single open lot of
3 units at price 110. -/
theorem c1_fifo_example :
    (roundTrips exOrders).map (fun t => (t.qty, t.buyPrice, t.sellPrice, t.pl)) =
      [(num 10, num 100, num 120, num 200), (num 2, num 110, num 120, num 20)] ∧
    (processSymbolOrders exOrders).buyQueue =
      [{ qty := num 3, price := num 110, date := 2 }] :=
  ⟨by with_unfolding_all rfl, by with_unfolding_all rfl⟩

/-- C7: `metrics` applied to the empty round-trip list returns the
degenerate defaults: 0 trades, 0 win rate, 0 total P/L, 0 profit factor,
0 expectancy, and `null` for both the largest win and the largest loss. -/
theorem c7_aggregate_empty_defaults :
    (metrics []).totalTrades = 0 ∧ (metrics []).winRate = num 0 ∧
    (metrics []).totalPL = num 0 ∧ (metrics []).profitFactor = num 0 ∧
    (metrics []).expectancy = num 0 ∧ (metrics []).largestWin = none ∧
    (metrics []).largestLoss = none :=
  ⟨rfl, rfl, rfl, rfl, rfl, rfl, rfl⟩

/-- A buy lot with price 0 followed by a sell: the failing input for the
division-by-zero claim. -/
def zeroPriceOrders : List Order :=
  [ { symbol := "Z", side := "buy", filled_qty := num 1,
      filled_avg_price := num 0, filled_at := 1, status := "filled" },
    { symbol := "Z", side := "sell", filled_qty := num 1,
      filled_avg_price := num 5, filled_at := 2, status := "filled" } ]

/-- C8 (failing input): the source computes
`((price - buy.price) / buy.price) * 100` with no guard, so the round
trip matched against a buy lot of price 0 carries
`profitLossPercent = Infinity` — not a defined finite sentinel. -/
theorem c8_zero_buy_price_gives_infinity :
    (roundTrips zeroPriceOrders).map Trip.plPercent = [posInf] := by
  with_unfolding_all rfl

/-- A malformed buy (non-numeric `filled_qty`, so `parseFloat` gives
`NaN`), a well-formed buy of 10@100, and a sell of 5@120: the failing
input for the malformed-order claim. -/
def malformedOrders : List Order :=
  [ { symbol := "Z", side := "buy", filled_qty := nan,
      filled_avg_price := num 100, filled_at := 1, status := "filled" },
    { symbol := "Z", side := "buy", filled_qty := num 10,
      filled_avg_price := num 100, filled_at := 2, status := "filled" },
    { symbol := "Z", side := "sell", filled_qty := num 5,
      filled_avg_price := num 120, filled_at := 3, status := "filled" } ]

/-- C9 (failing input): the matcher does not skip an order with a
non-numeric quantity.  The `NaN` lot is matched first, emitting one
round trip whose quantity and P/L are `NaN`; the sell is consumed by it,
the well-formed buy of 10 units is never matched and stays queued behind
the permanently stuck `NaN` lot, and no skipped-record count exists
anywhere in the matcher's output. -/
theorem c9_malformed_order_not_skipped :
    (roundTrips malformedOrders).map (fun t => (t.qty, t.pl)) = [(nan, nan)] ∧
    (processSymbolOrders malformedOrders).buyQueue =
      [{ qty := nan, price := num 100, date := 1 },
       { qty := num 10, price := num 100, date := 2 }] :=
  ⟨by with_unfolding_all rfl, by with_unfolding_all rfl⟩

/-- C4: for every input order sequence, the full round-trip list the
matcher returns — across all symbols — is sorted ascending by sell
timestamp. -/
theorem c4_output_sorted_by_sellDate (orders : List Order) :
    (roundTrips orders).Pairwise fun a b : Trip => a.sellDate ≤ b.sellDate := by
  unfold roundTrips
  exact stableSort_pairwise Trip.sellDate _

/-! ### C3: a sell against an empty queue -/

/-- A filled sell on symbol `A` arriving before any `A` buy: it is
processed while `A`'s FIFO queue is empty. -/
def c3sellOrder : Order :=
  { symbol := "A", side := "sell", filled_qty := num 1,
    filled_avg_price := num 1, filled_at := 0, status := "filled" }

def c3buyA : Order :=
  { symbol := "A", side := "buy", filled_qty := num 1,
    filled_avg_price := num 1, filled_at := 1, status := "filled" }

def c3sellA : Order :=
  { symbol := "A", side := "sell", filled_qty := num 1,
    filled_avg_price := num 2, filled_at := 2, status := "filled" }

def c3buyB : Order :=
  { symbol := "B", side := "buy", filled_qty := num 1,
    filled_avg_price := num 1, filled_at := 1, status := "filled" }

def c3sellB : Order :=
  { symbol := "B", side := "sell", filled_qty := num 1,
    filled_avg_price := num 2, filled_at := 2, status := "filled" }

def c3ordersWith : List Order := [c3sellOrder, c3buyB, c3sellB, c3buyA, c3sellA]

def c3ordersWithout : List Order := [c3buyB, c3sellB, c3buyA, c3sellA]

/-- C3 (counterexample): an empty-queue sell is a per-symbol no-op
(processing `A`'s orders with and without it gives the same state), yet
the full returned list is NOT the same as with the sell absent: the sell
is the first occurrence of symbol `A`, so removing it changes the symbol
key order, and the final stable sort keeps that order for the two trips
with equal sell timestamps — the outputs differ in order. -/
theorem c3_counterexample :
    c3sellOrder.side = "sell" ∧
    processSymbolOrders [c3sellOrder, c3buyA, c3sellA] =
      processSymbolOrders [c3buyA, c3sellA] ∧
    roundTrips c3ordersWith ≠ roundTrips c3ordersWithout :=
  ⟨rfl, by with_unfolding_all rfl,
   of_decide_eq_false (by with_unfolding_all rfl)⟩

/-- C3 (amended): a filled sell processed while the symbol's FIFO queue
of open buy lots is empty leaves the per-symbol matcher state (open lots
and emitted trips) — and hence the per-symbol statistics — exactly as if
the sell were absent from the symbol's processing sequence. -/
theorem c3_empty_queue_sell_noop (pre post : List Order) (s : Order)
    (hside : s.side = "sell")
    (hq : (pre.foldl processOrder ⟨[], []⟩).buyQueue = []) :
    (pre ++ s :: post).foldl processOrder ⟨[], []⟩ =
      (pre ++ post).foldl processOrder ⟨[], []⟩ ∧
    symbolStatsOf ((pre ++ s :: post).foldl processOrder ⟨[], []⟩).trips =
      symbolStatsOf ((pre ++ post).foldl processOrder ⟨[], []⟩).trips := by
  have h1 : ¬ s.side = "buy" := by simp [hside]
  have h2 : ¬ (s.side = "sell" ∧ ¬ (pre.foldl processOrder ⟨[], []⟩).buyQueue = []) :=
    fun h => h.2 hq
  have hstep : processOrder (pre.foldl processOrder ⟨[], []⟩) s =
      pre.foldl processOrder ⟨[], []⟩ := by
    simp only [processOrder]
    rw [if_neg h1, if_neg h2]
  have key : (pre ++ s :: post).foldl processOrder ⟨[], []⟩ =
      (pre ++ post).foldl processOrder ⟨[], []⟩ := by
    rw [List.foldl_append, List.foldl_append, List.foldl_cons, hstep]
  exact ⟨key, by rw [key]⟩

/-- Witness for `c3_empty_queue_sell_noop` at a concrete input. -/
theorem c3_empty_queue_sell_noop_witness :
    c3sellOrder.side = "sell" ∧
    (([] : List Order).foldl processOrder ⟨[], []⟩).buyQueue = [] ∧
    ([] ++ c3sellOrder :: [c3buyA, c3sellA]).foldl processOrder ⟨[], []⟩ =
      ([] ++ [c3buyA, c3sellA]).foldl processOrder ⟨[], []⟩ :=
  ⟨rfl, rfl, (c3_empty_queue_sell_noop [] [c3buyA, c3sellA] c3sellOrder rfl rfl).1⟩

/-! ### C6: profit factor -/

theorem foldl_jadd_num :
    ∀ l : List JSNum, ∀ a : ℚ, (∀ v ∈ l, ∃ q : ℚ, v = num q) →
      l.foldl jadd (num a) = num (a + (l.map qval).sum)
  | [], a, _ => by simp
  | v :: l, a, h => by
    obtain ⟨q, rfl⟩ := h v (List.mem_cons_self v l)
    have ih := foldl_jadd_num l (a + q) fun w hw => h w (List.mem_cons_of_mem _ hw)
    simp only [List.foldl_cons, List.map_cons, List.sum_cons]
    rw [show jadd (num a) (num q) = num (a + q) from rfl, ih, add_assoc]
    simp [qval]

/-- `reduce((s, x) => s + x, 0)` over finite values is the rational sum. -/
theorem jsum_num (l : List JSNum) (h : ∀ v ∈ l, ∃ q : ℚ, v = num q) :
    jsum l = num ((l.map qval).sum) := by
  have := foldl_jadd_num l 0 h
  simpa [jsum] using this

/-- Sum of profitLoss over the winners (profitLoss ≥ 0), in the words of
the specification. -/
def winSum (trips : List Trip) : ℚ :=
  ((trips.filter fun t => decide (0 ≤ qval t.pl)).map fun t => qval t.pl).sum

/-- Absolute value of the sum of profitLoss over the losers
(profitLoss < 0), in the words of the specification. -/
def lossAbsSum (trips : List Trip) : ℚ :=
  |((trips.filter fun t => decide (qval t.pl < 0)).map fun t => qval t.pl).sum|

theorem metrics_profitFactor_eq (trips : List Trip) (h : trips ≠ []) :
    (metrics trips).profitFactor =
      (if jgtB (jabs (jsum ((trips.filter fun rt => jltB rt.pl (num 0)).map Trip.pl))) (num 0)
        then jdiv (jsum ((trips.filter fun rt => jgeB rt.pl (num 0)).map Trip.pl))
               (jabs (jsum ((trips.filter fun rt => jltB rt.pl (num 0)).map Trip.pl)))
        else if jgtB (jsum ((trips.filter fun rt => jgeB rt.pl (num 0)).map Trip.pl)) (num 0)
          then posInf else num 0) := by
  unfold metrics
  rw [if_neg h]

/-- C6: for round trips with finite P/L values, the profit factor is the
winners' P/L sum divided by the absolute value of the losers' P/L sum;
when the loss sum is 0 and the win sum is positive it is the positive
infinity sentinel (not an error), and when both sums are 0 it is 0. -/
theorem c6_profit_factor (trips : List Trip)
    (h : ∀ t ∈ trips, ∃ q : ℚ, t.pl = num q) :
    (metrics trips).profitFactor =
      if 0 < lossAbsSum trips then num (winSum trips / lossAbsSum trips)
      else if 0 < winSum trips then posInf
      else num 0 := by
  by_cases hemp : trips = []
  · subst hemp
    simp [metrics, winSum, lossAbsSum]
  · rw [metrics_profitFactor_eq trips hemp]
    have hwf : trips.filter (fun rt => jgeB rt.pl (num 0)) =
        trips.filter (fun t => decide (0 ≤ qval t.pl)) :=
      List.filter_congr fun t ht => by
        obtain ⟨q, hq⟩ := h t ht
        simp [hq, jgeB, jleB, qval]
    have hlf : trips.filter (fun rt => jltB rt.pl (num 0)) =
        trips.filter (fun t => decide (qval t.pl < 0)) :=
      List.filter_congr fun t ht => by
        obtain ⟨q, hq⟩ := h t ht
        simp [hq, jltB, qval]
    have hnum : ∀ p : Trip → Bool, ∀ v ∈ (trips.filter p).map Trip.pl, ∃ q : ℚ, v = num q := by
      intro p v hv
      obtain ⟨t, ht, rfl⟩ := List.mem_map.mp hv
      exact h t (List.mem_of_mem_filter ht)
    have hmapmap : ∀ p : Trip → Bool,
        ((trips.filter p).map Trip.pl).map qval = (trips.filter p).map fun t => qval t.pl := by
      intro p
      rw [List.map_map]
      rfl
    rw [hwf, hlf, jsum_num _ (hnum _), jsum_num _ (hnum _), hmapmap, hmapmap]
    simp only [winSum, lossAbsSum, jabs, jgtB, jltB, decide_eq_true_eq]
    split_ifs with h1 h2
    · simp [jdiv, ne_of_gt h1]
    · rfl
    · rfl

/-- A winning trip (P/L 50) for the concrete profit-factor witness. -/
def c6winTrip : Trip :=
  { symbol := "W", buyPrice := num 10, sellPrice := num 60, qty := num 1,
    pl := num 50, plPercent := num 500, cost := num 10, revenue := num 60,
    buyDate := 0, sellDate := 1 }

/-- A losing trip (P/L -10) for the concrete profit-factor witness. -/
def c6lossTrip : Trip :=
  { symbol := "W", buyPrice := num 20, sellPrice := num 10, qty := num 1,
    pl := num (-10), plPercent := num (-50), cost := num 20, revenue := num 10,
    buyDate := 0, sellDate := 2 }

/-- Witness for `c6_profit_factor` at a concrete two-trip input. -/
theorem c6_profit_factor_witness :
    (∀ t ∈ [c6winTrip, c6lossTrip], ∃ q : ℚ, t.pl = num q) ∧
    (metrics [c6winTrip, c6lossTrip]).profitFactor =
      (if 0 < lossAbsSum [c6winTrip, c6lossTrip] then
        num (winSum [c6winTrip, c6lossTrip] / lossAbsSum [c6winTrip, c6lossTrip])
      else if 0 < winSum [c6winTrip, c6lossTrip] then posInf
      else num 0) := by
  have hpl : ∀ t ∈ [c6winTrip, c6lossTrip], ∃ q : ℚ, t.pl = num q := by
    intro t ht
    fin_cases ht
    · exact ⟨50, rfl⟩
    · exact ⟨-10, rfl⟩
  exact ⟨hpl, c6_profit_factor [c6winTrip, c6lossTrip] hpl⟩

/-! ### C5: the gap-filled daily P/L series -/

/-- Realised P/L summed over the trips sold on day `d`. -/
def daySumQ (ts : List Trip) (d : ℤ) : ℚ :=
  ((ts.filter fun t => decide (dayOf t.sellDate = d)).map fun t => qval t.pl).sum

theorem daySumQ_nil (d : ℤ) : daySumQ [] d = 0 := rfl

theorem daySumQ_cons (t : Trip) (ts : List Trip) (d : ℤ) :
    daySumQ (t :: ts) d =
      (if dayOf t.sellDate = d then qval t.pl else 0) + daySumQ ts d := by
  by_cases h : dayOf t.sellDate = d <;> simp [daySumQ, h]

theorem foldl_min_le_init : ∀ (l : List ℤ) (a : ℤ), l.foldl min a ≤ a
  | [], _ => le_refl _
  | x :: l, a => le_trans (foldl_min_le_init l (min a x)) (min_le_left a x)

theorem foldl_min_le_mem : ∀ (l : List ℤ) (a x : ℤ), x ∈ l → l.foldl min a ≤ x
  | [], _, x, hx => absurd hx (List.not_mem_nil x)
  | y :: l, a, x, hx => by
    rcases List.mem_cons.mp hx with rfl | hx
    · exact le_trans (foldl_min_le_init l (min a x)) (min_le_right a x)
    · exact foldl_min_le_mem l (min a y) x hx

theorem foldl_min_mem : ∀ (l : List ℤ) (a : ℤ), l.foldl min a = a ∨ l.foldl min a ∈ l
  | [], a => Or.inl rfl
  | y :: l, a => by
    rcases foldl_min_mem l (min a y) with h | h
    · rw [List.foldl_cons, h]
      rcases min_cases a y with ⟨h2, _⟩ | ⟨h2, _⟩
      · exact Or.inl h2
      · rw [h2]
        exact Or.inr (List.mem_cons_self y l)
    · refine Or.inr (List.mem_cons_of_mem y ?_)
      rw [List.foldl_cons]
      exact h

theorem le_foldl_max_init : ∀ (l : List ℤ) (a : ℤ), a ≤ l.foldl max a
  | [], _ => le_refl _
  | x :: l, a => le_trans (le_max_left a x) (le_foldl_max_init l (max a x))

theorem mem_le_foldl_max : ∀ (l : List ℤ) (a x : ℤ), x ∈ l → x ≤ l.foldl max a
  | [], _, x, hx => absurd hx (List.not_mem_nil x)
  | y :: l, a, x, hx => by
    rcases List.mem_cons.mp hx with rfl | hx
    · exact le_trans (le_max_right a x) (le_foldl_max_init l (max a x))
    · exact mem_le_foldl_max l (max a y) x hx

theorem foldl_max_mem : ∀ (l : List ℤ) (a : ℤ), l.foldl max a = a ∨ l.foldl max a ∈ l
  | [], a => Or.inl rfl
  | y :: l, a => by
    rcases foldl_max_mem l (max a y) with h | h
    · rw [List.foldl_cons, h]
      rcases max_cases a y with ⟨h2, _⟩ | ⟨h2, _⟩
      · exact Or.inl h2
      · rw [h2]
        exact Or.inr (List.mem_cons_self y l)
    · refine Or.inr (List.mem_cons_of_mem y ?_)
      rw [List.foldl_cons]
      exact h

/-- Minimum of a list of integers (0 on the empty list; used only on
non-empty lists). -/
def listMin : List ℤ → ℤ
  | [] => 0
  | a :: l => l.foldl min a

/-- Maximum of a list of integers (0 on the empty list). -/
def listMax : List ℤ → ℤ
  | [] => 0
  | a :: l => l.foldl max a

theorem listMin_le_mem (l : List ℤ) (x : ℤ) (hx : x ∈ l) : listMin l ≤ x := by
  match l, hx with
  | a :: l, hx =>
    rcases List.mem_cons.mp hx with rfl | hx
    · exact foldl_min_le_init l x
    · exact foldl_min_le_mem l a x hx

theorem listMin_mem (l : List ℤ) (h : l ≠ []) : listMin l ∈ l := by
  match l with
  | a :: l =>
    rcases foldl_min_mem l a with h2 | h2
    · rw [listMin, h2]
      exact List.mem_cons_self a l
    · exact List.mem_cons_of_mem a h2

theorem mem_le_listMax (l : List ℤ) (x : ℤ) (hx : x ∈ l) : x ≤ listMax l := by
  match l, hx with
  | a :: l, hx =>
    rcases List.mem_cons.mp hx with rfl | hx
    · exact le_foldl_max_init l x
    · exact mem_le_foldl_max l a x hx

theorem listMax_mem (l : List ℤ) (h : l ≠ []) : listMax l ∈ l := by
  match l with
  | a :: l =>
    rcases foldl_max_mem l a with h2 | h2
    · rw [listMax, h2]
      exact List.mem_cons_self a l
    · exact List.mem_cons_of_mem a h2

theorem head_le_of_pairwise (d0 : ℤ) (rest : List ℤ)
    (h : (d0 :: rest).Pairwise (· ≤ ·)) : ∀ x ∈ d0 :: rest, d0 ≤ x := by
  intro x hx
  rcases List.mem_cons.mp hx with rfl | hx
  · exact le_refl x
  · exact (List.pairwise_cons.mp h).1 x hx

theorem le_getLast_of_pairwise :
    ∀ (l : List ℤ) (hl : l ≠ []), l.Pairwise (· ≤ ·) →
      ∀ x ∈ l, x ≤ l.getLast hl
  | [a], _, _, x, hx => by
    rcases List.mem_cons.mp hx with rfl | hx
    · exact le_refl x
    · exact absurd hx (List.not_mem_nil x)
  | a :: b :: t, _, h, x, hx => by
    rw [List.getLast_cons (List.cons_ne_nil b t)]
    rcases List.mem_cons.mp hx with rfl | hx
    · exact (List.pairwise_cons.mp h).1 _ (List.getLast_mem (List.cons_ne_nil b t))
    · exact le_getLast_of_pairwise (b :: t) (List.cons_ne_nil b t)
        (List.pairwise_cons.mp h).2 x hx

theorem lookup_cons_self (k : ℤ) (v : JSNum) (rest : List (ℤ × JSNum)) :
    ((k, v) :: rest).lookup k = some v := by
  simp [List.lookup]

theorem lookup_cons_ne (k0 k' : ℤ) (v : JSNum) (rest : List (ℤ × JSNum))
    (h : k' ≠ k0) : ((k0, v) :: rest).lookup k' = rest.lookup k' := by
  simp [List.lookup, beq_eq_false_iff_ne.mpr h]

theorem mapGetOr0_cons_self (k : ℤ) (v : JSNum) (rest : List (ℤ × JSNum)) :
    mapGetOr0 ((k, v) :: rest) k = jOrZero v := by
  simp [mapGetOr0, lookup_cons_self]

theorem mapGetOr0_cons_ne (k0 k' : ℤ) (v : JSNum) (rest : List (ℤ × JSNum))
    (h : k' ≠ k0) : mapGetOr0 ((k0, v) :: rest) k' = mapGetOr0 rest k' := by
  simp [mapGetOr0, lookup_cons_ne _ _ _ _ h]

theorem insertAdd_cons_self (k : ℤ) (v v0 : JSNum) (rest : List (ℤ × JSNum)) :
    insertAdd ((k, v0) :: rest) k v = (k, jadd (jOrZero v0) v) :: rest := by
  simp [insertAdd]

theorem insertAdd_cons_ne (k0 k : ℤ) (v v0 : JSNum) (rest : List (ℤ × JSNum))
    (h : k0 ≠ k) : insertAdd ((k0, v0) :: rest) k v = (k0, v0) :: insertAdd rest k v := by
  simp [insertAdd, h]

theorem lookup_insertAdd (m : List (ℤ × JSNum)) (k : ℤ) (v : JSNum) (k' : ℤ) :
    (insertAdd m k v).lookup k' =
      if k' = k then some (jadd (mapGetOr0 m k) v) else m.lookup k' := by
  induction m with
  | nil =>
    by_cases h : k' = k
    · subst h
      simp only [insertAdd, mapGetOr0, List.lookup, if_pos rfl]
      exact lookup_cons_self k' _ []
    · simp only [insertAdd, if_neg h]
      exact (lookup_cons_ne k k' _ [] h).trans rfl
  | cons p rest ih =>
    obtain ⟨k0, v0⟩ := p
    by_cases h0 : k0 = k
    · subst h0
      rw [insertAdd_cons_self]
      by_cases h : k' = k0
      · rw [h, lookup_cons_self, if_pos rfl, mapGetOr0_cons_self]
      · rw [lookup_cons_ne _ _ _ _ h, lookup_cons_ne _ _ _ _ h, if_neg h]
    · rw [insertAdd_cons_ne _ _ _ _ _ h0]
      by_cases h : k' = k0
      · have hkk : ¬ k' = k := fun hk => h0 (h.symm.trans hk)
        rw [h, lookup_cons_self, if_neg (fun hk : k0 = k => h0 hk), lookup_cons_self]
      · rw [lookup_cons_ne _ _ _ _ h, lookup_cons_ne _ _ _ _ h, ih,
          mapGetOr0_cons_ne _ _ _ _ (fun hk : k = k0 => h0 hk.symm)]

theorem mapGetOr0_insertAdd (m : List (ℤ × JSNum)) (k : ℤ) (v : JSNum) (k' : ℤ) :
    mapGetOr0 (insertAdd m k v) k' =
      if k' = k then jOrZero (jadd (mapGetOr0 m k) v) else mapGetOr0 m k' := by
  by_cases h : k' = k <;>
    simp [mapGetOr0, lookup_insertAdd, h]

theorem mem_keys_insertAdd (m : List (ℤ × JSNum)) (k : ℤ) (v : JSNum) (d : ℤ) :
    d ∈ (insertAdd m k v).map Prod.fst ↔ d ∈ m.map Prod.fst ∨ d = k := by
  induction m with
  | nil => simp [insertAdd]
  | cons p rest ih =>
    obtain ⟨k0, v0⟩ := p
    by_cases h0 : k0 = k
    · subst h0
      rw [insertAdd_cons_self]
      simp only [List.map_cons, List.mem_cons]
      tauto
    · rw [insertAdd_cons_ne _ _ _ _ _ h0]
      simp only [List.map_cons, List.mem_cons, ih]
      tauto

theorem mem_keys_buildfold :
    ∀ (ts : List Trip) (m : List (ℤ × JSNum)) (d : ℤ),
      d ∈ (ts.foldl (fun m rt => insertAdd m (dayOf rt.sellDate) rt.pl) m).map Prod.fst ↔
        d ∈ m.map Prod.fst ∨ ∃ t ∈ ts, dayOf t.sellDate = d
  | [], m, d => by simp
  | t :: ts, m, d => by
    rw [List.foldl_cons, mem_keys_buildfold ts _ d, mem_keys_insertAdd]
    simp only [List.mem_cons]
    constructor
    · rintro ((h | h) | ⟨t', ht', hd⟩)
      · exact Or.inl h
      · exact Or.inr ⟨t, Or.inl rfl, h.symm⟩
      · exact Or.inr ⟨t', Or.inr ht', hd⟩
    · rintro (h | ⟨t', (rfl | ht'), hd⟩)
      · exact Or.inl (Or.inl h)
      · exact Or.inl (Or.inr hd.symm)
      · exact Or.inr ⟨t', ht', hd⟩

theorem mapGetOr0_buildfold :
    ∀ (ts : List Trip) (m : List (ℤ × JSNum)),
      (∀ t ∈ ts, ∃ q : ℚ, t.pl = num q) →
      (∀ d : ℤ, ∃ a : ℚ, mapGetOr0 m d = num a) →
      ∀ d : ℤ,
        mapGetOr0 (ts.foldl (fun m rt => insertAdd m (dayOf rt.sellDate) rt.pl) m) d =
          num (qval (mapGetOr0 m d) + daySumQ ts d)
  | [], m, _, hm, d => by
    obtain ⟨a, ha⟩ := hm d
    rw [List.foldl_nil, ha, daySumQ_nil]
    simp [qval]
  | t :: ts, m, h, hm, d => by
    obtain ⟨p, hp⟩ := h t (List.mem_cons_self t ts)
    have hm' : ∀ d : ℤ, ∃ a : ℚ,
        mapGetOr0 (insertAdd m (dayOf t.sellDate) t.pl) d = num a := by
      intro d'
      obtain ⟨a0, ha0⟩ := hm d'
      obtain ⟨a1, ha1⟩ := hm (dayOf t.sellDate)
      by_cases hd' : d' = dayOf t.sellDate
      · refine ⟨a1 + p, ?_⟩
        rw [mapGetOr0_insertAdd, if_pos hd', ha1, hp]
        rfl
      · refine ⟨a0, ?_⟩
        rw [mapGetOr0_insertAdd, if_neg hd', ha0]
    have ih := mapGetOr0_buildfold ts (insertAdd m (dayOf t.sellDate) t.pl)
      (fun t' ht' => h t' (List.mem_cons_of_mem t ht')) hm' d
    rw [List.foldl_cons, ih, mapGetOr0_insertAdd, daySumQ_cons]
    obtain ⟨a0, ha0⟩ := hm d
    obtain ⟨a1, ha1⟩ := hm (dayOf t.sellDate)
    by_cases hd : d = dayOf t.sellDate
    · rw [if_pos hd, hd, ha1, hp, if_pos rfl]
      simp [jadd, jOrZero, qval, add_assoc]
    · have hd2 : ¬ dayOf t.sellDate = d := fun hh => hd hh.symm
      rw [if_neg hd, if_neg hd2, ha0, zero_add]

/-- Earliest sell calendar day among the trips (meaningful when the trip
list is non-empty). -/
def minSellDay (trips : List Trip) : ℤ := listMin (trips.map fun t => dayOf t.sellDate)

/-- Latest sell calendar day among the trips. -/
def maxSellDay (trips : List Trip) : ℤ := listMax (trips.map fun t => dayOf t.sellDate)

theorem dailyPL_eq_of_dates (trips : List Trip) (hne : trips ≠ []) (d0 : ℤ)
    (rest : List ℤ)
    (hd : stableSort (fun a b => decide (a < b)) ((buildDailyMap trips).map Prod.fst) =
      d0 :: rest) :
    dailyPL trips =
      (eachDay d0 ((d0 :: rest).getLast (List.cons_ne_nil d0 rest))).map
        (fun d => { day := d, pl := mapGetOr0 (buildDailyMap trips) d }) := by
  rw [dailyPL, if_neg hne, hd, dailyFromDates]

theorem dailyPL_spec (trips : List Trip) (hne : trips ≠ [])
    (h : ∀ t ∈ trips, ∃ q : ℚ, t.pl = num q) :
    (dailyPL trips).map DayPL.day = eachDay (minSellDay trips) (maxSellDay trips) ∧
    ∀ e ∈ dailyPL trips, e.pl = num (daySumQ trips e.day) := by
  have hkeys : ∀ d : ℤ,
      d ∈ (buildDailyMap trips).map Prod.fst ↔ ∃ t ∈ trips, dayOf t.sellDate = d := by
    intro d
    have h2 := mem_keys_buildfold trips [] d
    simpa [buildDailyMap] using h2
  have hvals : ∀ d : ℤ, mapGetOr0 (buildDailyMap trips) d = num (daySumQ trips d) := by
    intro d
    have h2 := mapGetOr0_buildfold trips [] h (fun _ => ⟨0, rfl⟩) d
    rw [show qval (mapGetOr0 [] d) = 0 from rfl, zero_add] at h2
    exact h2
  have hdmem : ∀ d : ℤ,
      d ∈ stableSort (fun a b => decide (a < b)) ((buildDailyMap trips).map Prod.fst) ↔
        ∃ t ∈ trips, dayOf t.sellDate = d := by
    intro d
    rw [(stableSort_perm _ _).mem_iff]
    exact hkeys d
  have hsorted :
      (stableSort (fun a b => decide (a < b)) ((buildDailyMap trips).map Prod.fst)).Pairwise
        (· ≤ ·) := stableSort_pairwise (fun d : ℤ => d) _
  obtain ⟨t0, ht0⟩ := List.exists_mem_of_ne_nil trips hne
  have hdne : stableSort (fun a b => decide (a < b)) ((buildDailyMap trips).map Prod.fst) ≠ [] := by
    intro hnil
    have hmm : dayOf t0.sellDate ∈
        stableSort (fun a b => decide (a < b)) ((buildDailyMap trips).map Prod.fst) :=
      (hdmem _).mpr ⟨t0, ht0, rfl⟩
    rw [hnil] at hmm
    exact List.not_mem_nil _ hmm
  obtain ⟨d0, rest, hcons⟩ := List.exists_cons_of_ne_nil hdne
  have hsorted' : (d0 :: rest).Pairwise (· ≤ ·) := hcons ▸ hsorted
  have hdmem' : ∀ d : ℤ, d ∈ d0 :: rest ↔ ∃ t ∈ trips, dayOf t.sellDate = d := by
    rw [← hcons]
    exact hdmem
  have hmapne : (trips.map fun t => dayOf t.sellDate) ≠ [] := by
    intro hnil
    exact hne (List.map_eq_nil_iff.mp hnil)
  have hd0min : d0 = minSellDay trips := by
    have hd0mem : d0 ∈ d0 :: rest := List.mem_cons_self d0 rest
    obtain ⟨t1, ht1, hday1⟩ := (hdmem' d0).mp hd0mem
    have hminmem : minSellDay trips ∈ d0 :: rest := by
      apply (hdmem' _).mpr
      obtain ⟨t2, ht2, hd2⟩ := List.mem_map.mp (listMin_mem _ hmapne)
      exact ⟨t2, ht2, hd2⟩
    have h1 : d0 ≤ minSellDay trips :=
      head_le_of_pairwise d0 rest hsorted' _ hminmem
    have h2 : minSellDay trips ≤ d0 :=
      listMin_le_mem _ _ (List.mem_map.mpr ⟨t1, ht1, hday1⟩)
    exact le_antisymm h1 h2
  have hdlast : (d0 :: rest).getLast (List.cons_ne_nil d0 rest) = maxSellDay trips := by
    have hlastmem : (d0 :: rest).getLast (List.cons_ne_nil d0 rest) ∈ d0 :: rest :=
      List.getLast_mem (List.cons_ne_nil d0 rest)
    obtain ⟨t1, ht1, hday1⟩ := (hdmem' _).mp hlastmem
    have hmaxmem : maxSellDay trips ∈ d0 :: rest := by
      apply (hdmem' _).mpr
      obtain ⟨t2, ht2, hd2⟩ := List.mem_map.mp (listMax_mem _ hmapne)
      exact ⟨t2, ht2, hd2⟩
    have h1 : maxSellDay trips ≤ (d0 :: rest).getLast (List.cons_ne_nil d0 rest) :=
      le_getLast_of_pairwise (d0 :: rest) (List.cons_ne_nil d0 rest) hsorted' _ hmaxmem
    have h2 : (d0 :: rest).getLast (List.cons_ne_nil d0 rest) ≤ maxSellDay trips :=
      mem_le_listMax _ _ (List.mem_map.mpr ⟨t1, ht1, hday1⟩)
    exact le_antisymm h2 h1
  have hdpl := dailyPL_eq_of_dates trips hne d0 rest hcons
  constructor
  · rw [hdpl, List.map_map]
    have hcomp : (DayPL.day ∘ fun d => ({ day := d, pl := mapGetOr0 (buildDailyMap trips) d } : DayPL)) =
        id := rfl
    rw [hcomp, List.map_id, hdlast, ← hd0min]
  · intro e he
    rw [hdpl] at he
    obtain ⟨d, _, rfl⟩ := List.mem_map.mp he
    exact hvals d

/-- C5: for a non-empty trip list with finite P/L values, `dailyPL`
returns exactly one entry per calendar day of the inclusive range from
the earliest to the latest sell day, in ascending day order, and each
entry's value is the sum of P/L of the trips sold that day (0 for days
with no trips). -/
theorem c5_daily_series (trips : List Trip) (hne : trips ≠ [])
    (h : ∀ t ∈ trips, ∃ q : ℚ, t.pl = num q) :
    (dailyPL trips).map DayPL.day = eachDay (minSellDay trips) (maxSellDay trips) ∧
    ∀ e ∈ dailyPL trips, e.pl = num (daySumQ trips e.day) :=
  dailyPL_spec trips hne h

/-- A trip sold on day 1 for the daily-series witness. -/
def c5tripA : Trip :=
  { symbol := "A", buyPrice := num 1, sellPrice := num 2, qty := num 1,
    pl := num 10, plPercent := num 100, cost := num 1, revenue := num 2,
    buyDate := 0, sellDate := 86400 }

/-- A trip sold on day 3 for the daily-series witness (day 2 has no
trips and must be gap-filled with 0). -/
def c5tripB : Trip :=
  { symbol := "A", buyPrice := num 1, sellPrice := num 2, qty := num 1,
    pl := num 7, plPercent := num 100, cost := num 1, revenue := num 2,
    buyDate := 0, sellDate := 3 * 86400 }

/-- Witness for `c5_daily_series`: trips sold on day 1 and day 3 only. -/
theorem c5_daily_series_witness :
    ([c5tripA, c5tripB] ≠ ([] : List Trip)) ∧
    (∀ t ∈ [c5tripA, c5tripB], ∃ q : ℚ, t.pl = num q) ∧
    ((dailyPL [c5tripA, c5tripB]).map DayPL.day =
      eachDay (minSellDay [c5tripA, c5tripB]) (maxSellDay [c5tripA, c5tripB]) ∧
    ∀ e ∈ dailyPL [c5tripA, c5tripB], e.pl = num (daySumQ [c5tripA, c5tripB] e.day)) := by
  have h1 : ([c5tripA, c5tripB] : List Trip) ≠ [] := by simp
  have h2 : ∀ t ∈ [c5tripA, c5tripB], ∃ q : ℚ, t.pl = num q := by
    intro t ht
    fin_cases ht
    · exact ⟨10, rfl⟩
    · exact ⟨7, rfl⟩
  exact ⟨h1, h2, c5_daily_series [c5tripA, c5tripB] h1 h2⟩

/-! ### C10: last cumulative value = total P/L -/

theorem metrics_totalPL_eq (trips : List Trip) (h : trips ≠ []) :
    (metrics trips).totalPL = jsum (trips.map Trip.pl) := by
  unfold metrics
  rw [if_neg h]

theorem cumScan_getLast :
    ∀ (l : List DayPL) (c : JSNum) (hl : l ≠ []),
      (cumScan c l).getLast? =
        some { day := (l.getLast hl).day, cumulative := (l.map DayPL.pl).foldl jadd c }
  | [d], c, _ => by simp [cumScan]
  | d :: d' :: t, c, _ => by
    rw [show cumScan c (d :: d' :: t) =
      { day := d.day, cumulative := jadd c d.pl } :: cumScan (jadd c d.pl) (d' :: t) from rfl]
    rw [show cumScan (jadd c d.pl) (d' :: t) =
      { day := d'.day, cumulative := jadd (jadd c d.pl) d'.pl } ::
        cumScan (jadd (jadd c d.pl) d'.pl) t from rfl]
    rw [List.getLast?_cons_cons]
    rw [show ({ day := d'.day, cumulative := jadd (jadd c d.pl) d'.pl } ::
        cumScan (jadd (jadd c d.pl) d'.pl) t) = cumScan (jadd c d.pl) (d' :: t) from rfl]
    rw [cumScan_getLast (d' :: t) (jadd c d.pl) (List.cons_ne_nil d' t)]
    rw [List.getLast_cons (List.cons_ne_nil d' t)]
    rfl

theorem sum_map_add (l : List ℤ) (f g : ℤ → ℚ) :
    (l.map fun d => f d + g d).sum = (l.map f).sum + (l.map g).sum := by
  induction l with
  | nil => simp
  | cons a l ih =>
    simp only [List.map_cons, List.sum_cons, ih]
    ring

theorem sum_indicator_of_nodup (l : List ℤ) (d0 : ℤ) (x : ℚ) (hnd : l.Nodup)
    (hmem : d0 ∈ l) : (l.map fun d => if d0 = d then x else 0).sum = x := by
  induction l with
  | nil => cases hmem
  | cons a l ih =>
    rcases List.mem_cons.mp hmem with rfl | hmem'
    · have hz : ∀ d ∈ l, (if d0 = d then x else 0) = 0 := by
        intro d hd
        rw [if_neg]
        intro hh
        exact (List.nodup_cons.mp hnd).1 (hh ▸ hd)
      simp only [List.map_cons, if_pos rfl, List.sum_cons]
      rw [List.map_congr_left hz]
      simp
    · have hne : ¬ d0 = a := by
        rintro rfl
        exact (List.nodup_cons.mp hnd).1 hmem'
      simp only [List.map_cons, if_neg hne, List.sum_cons, zero_add]
      exact ih (List.nodup_cons.mp hnd).2 hmem'

theorem eachDay_nodup (a b : ℤ) : (eachDay a b).Nodup := by
  unfold eachDay
  refine List.Nodup.map ?_ (List.nodup_range _)
  intro i j hij
  simp only at hij
  omega

theorem mem_eachDay (a b d : ℤ) : d ∈ eachDay a b ↔ a ≤ d ∧ d ≤ a + ((b - a).toNat : ℤ) := by
  unfold eachDay
  simp only [List.mem_map, List.mem_range]
  constructor
  · rintro ⟨i, hi, rfl⟩
    omega
  · rintro ⟨h1, h2⟩
    exact ⟨(d - a).toNat, by omega, by omega⟩

theorem sum_daySumQ_eachDay :
    ∀ (ts : List Trip) (a b : ℤ),
      (∀ t ∈ ts, a ≤ dayOf t.sellDate ∧ dayOf t.sellDate ≤ b) → a ≤ b →
      ((eachDay a b).map fun d => daySumQ ts d).sum = (ts.map fun t => qval t.pl).sum
  | [], a, b, _, _ => by
    simp [daySumQ_nil]
  | t :: ts, a, b, hb, hab => by
    have hmem : dayOf t.sellDate ∈ eachDay a b := by
      rw [mem_eachDay]
      have := hb t (List.mem_cons_self t ts)
      omega
    have hrec := sum_daySumQ_eachDay ts a b
      (fun t' ht' => hb t' (List.mem_cons_of_mem t ht')) hab
    simp only [List.map_cons, List.sum_cons]
    rw [show (fun d => daySumQ (t :: ts) d) =
      (fun d => (if dayOf t.sellDate = d then qval t.pl else 0) + daySumQ ts d) from
        funext fun d => daySumQ_cons t ts d]
    rw [sum_map_add, hrec, sum_indicator_of_nodup _ _ _ (eachDay_nodup a b) hmem]

/-- C10: for a non-empty trip list with finite P/L values, the last
entry of the running cumulative P/L series (over the gap-filled daily
series) equals the total P/L reported by `metrics`, which is the sum of
profitLoss over all round trips. -/
theorem c10_cumulative_equals_total (trips : List Trip) (hne : trips ≠ [])
    (h : ∀ t ∈ trips, ∃ q : ℚ, t.pl = num q) :
    ((cumulativePL (dailyPL trips)).getLast?).map CumPL.cumulative =
      some ((metrics trips).totalPL) ∧
    (metrics trips).totalPL = num ((trips.map fun t => qval t.pl).sum) := by
  obtain ⟨hdays, hvals⟩ := dailyPL_spec trips hne h
  have htot : (metrics trips).totalPL = num ((trips.map fun t => qval t.pl).sum) := by
    rw [metrics_totalPL_eq trips hne, jsum_num]
    · rw [List.map_map]
      rfl
    · intro v hv
      obtain ⟨t, ht, rfl⟩ := List.mem_map.mp hv
      exact h t ht
  refine ⟨?_, htot⟩
  have hplmap : (dailyPL trips).map DayPL.pl =
      (eachDay (minSellDay trips) (maxSellDay trips)).map fun d => num (daySumQ trips d) := by
    have hcg : (dailyPL trips).map DayPL.pl =
        (dailyPL trips).map fun e => num (daySumQ trips e.day) :=
      List.map_congr_left fun e he => hvals e he
    rw [hcg,
      show (fun e : DayPL => num (daySumQ trips e.day)) =
        ((fun d => num (daySumQ trips d)) ∘ DayPL.day) from rfl,
      ← List.map_map, hdays]
  have hedne : eachDay (minSellDay trips) (maxSellDay trips) ≠ [] := by
    unfold eachDay
    simp
  have hdne : dailyPL trips ≠ [] := by
    intro hnil
    rw [hnil] at hdays
    exact hedne hdays.symm
  rw [cumulativePL, if_neg hdne, cumScan_getLast (dailyPL trips) (num 0) hdne]
  rw [Option.map_some', htot, hplmap]
  have hfold := foldl_jadd_num
    ((eachDay (minSellDay trips) (maxSellDay trips)).map fun d => num (daySumQ trips d)) 0
    (by
      intro v hv
      obtain ⟨d, _, rfl⟩ := List.mem_map.mp hv
      exact ⟨daySumQ trips d, rfl⟩)
  rw [hfold, List.map_map,
    show (qval ∘ fun d => num (daySumQ trips d)) = fun d => daySumQ trips d from rfl]
  have hmapne : (trips.map fun t => dayOf t.sellDate) ≠ [] := by
    intro hnil
    exact hne (List.map_eq_nil_iff.mp hnil)
  have hminmax : minSellDay trips ≤ maxSellDay trips :=
    listMin_le_mem _ _ (listMax_mem _ hmapne)
  have hbounds : ∀ t ∈ trips,
      minSellDay trips ≤ dayOf t.sellDate ∧ dayOf t.sellDate ≤ maxSellDay trips := by
    intro t ht
    exact ⟨listMin_le_mem _ _ (List.mem_map.mpr ⟨t, ht, rfl⟩),
      mem_le_listMax _ _ (List.mem_map.mpr ⟨t, ht, rfl⟩)⟩
  rw [sum_daySumQ_eachDay trips _ _ hbounds hminmax, zero_add]

/-- Witness for `c10_cumulative_equals_total` at a concrete two-trip
input (P/L 10 on day 1 and 7 on day 3; the cumulative series ends at 17). -/
theorem c10_cumulative_equals_total_witness :
    ([c5tripA, c5tripB] ≠ ([] : List Trip)) ∧
    (∀ t ∈ [c5tripA, c5tripB], ∃ q : ℚ, t.pl = num q) ∧
    (((cumulativePL (dailyPL [c5tripA, c5tripB])).getLast?).map CumPL.cumulative =
      some ((metrics [c5tripA, c5tripB]).totalPL) ∧
    (metrics [c5tripA, c5tripB]).totalPL =
      num (([c5tripA, c5tripB].map fun t => qval t.pl).sum)) := by
  have h1 : ([c5tripA, c5tripB] : List Trip) ≠ [] := by simp
  have h2 : ∀ t ∈ [c5tripA, c5tripB], ∃ q : ℚ, t.pl = num q := by
    intro t ht
    fin_cases ht
    · exact ⟨10, rfl⟩
    · exact ⟨7, rfl⟩
  exact ⟨h1, h2, c10_cumulative_equals_total [c5tripA, c5tripB] h1 h2⟩

/-! ### C2: matched quantity never exceeds bought quantity -/

theorem jmin_num (a b : ℚ) : jmin (num a) (num b) = num (min a b) := by
  by_cases h : a ≤ b
  · simp [jmin, jleB, h, min_eq_left h]
  · simp [jmin, jleB, h, min_eq_right (le_of_not_le h)]

theorem jmin_posInf_num (b : ℚ) : jmin posInf (num b) = num b := by
  simp [jmin, jleB]

theorem jsub_num (a b : ℚ) : jsub (num a) (num b) = num (a - b) := by
  simp [jsub, jneg, jadd, sub_eq_add_neg]

theorem jsub_posInf_num (b : ℚ) : jsub posInf (num b) = posInf := rfl

theorem jleB_num (a b : ℚ) : jleB (num a) (num b) = decide (a ≤ b) := rfl

theorem jgtB_num (a b : ℚ) : jgtB (num a) (num b) = decide (b < a) := rfl

theorem sellMatch_invariant (sym : String) (price : JSNum) (date : ℤ) :
    ∀ (fuel : ℕ) (sellQty : JSNum) (queue : List Lot),
      (∀ lot ∈ queue, ∃ q : ℚ, lot.qty = num q ∧ 0 ≤ q) →
      (∀ lot ∈ (sellMatch sym price date fuel sellQty queue).1,
        ∃ q : ℚ, lot.qty = num q ∧ 0 ≤ q) ∧
      (∀ t ∈ (sellMatch sym price date fuel sellQty queue).2,
        (∃ m : ℚ, t.qty = num m) ∧ t.symbol = sym) ∧
      ((sellMatch sym price date fuel sellQty queue).2.map fun t => qval t.qty).sum +
        ((sellMatch sym price date fuel sellQty queue).1.map fun l => qval l.qty).sum =
        (queue.map fun l => qval l.qty).sum := by
  intro fuel
  induction fuel with
  | zero =>
    intro sellQty queue hq
    cases queue with
    | nil => refine ⟨?_, ?_, ?_⟩ <;> simp [sellMatch]
    | cons buy rest => exact ⟨hq, by simp [sellMatch], by simp [sellMatch]⟩
  | succ fuel ih =>
    intro sellQty queue hq
    cases queue with
    | nil => refine ⟨?_, ?_, ?_⟩ <;> simp [sellMatch]
    | cons buy rest =>
      obtain ⟨q, hbq, hbq0⟩ := hq buy (List.mem_cons_self buy rest)
      have hrest : ∀ lot ∈ rest, ∃ q : ℚ, lot.qty = num q ∧ 0 ≤ q :=
        fun lot hl => hq lot (List.mem_cons_of_mem buy hl)
      by_cases hgt : jgtB sellQty (num 0) = true
      · cases sellQty with
        | nan => exact absurd hgt (by simp [jgtB, jltB])
        | negInf => exact absurd hgt (by simp [jgtB, jltB])
        | posInf =>
          have hstep : sellMatch sym price date (fuel + 1) posInf (buy :: rest) =
              ((sellMatch sym price date fuel posInf rest).1,
               { symbol := sym, buyPrice := buy.price, sellPrice := price,
                 qty := jmin posInf buy.qty,
                 pl := jmul (jsub price buy.price) (jmin posInf buy.qty),
                 plPercent := jmul (jdiv (jsub price buy.price) buy.price) (num 100),
                 cost := jmul buy.price (jmin posInf buy.qty),
                 revenue := jmul price (jmin posInf buy.qty),
                 buyDate := buy.date, sellDate := date } ::
                 (sellMatch sym price date fuel posInf rest).2) := by
            simp only [sellMatch]
            rw [if_pos hgt]
            rw [hbq, jmin_posInf_num, jsub_num, jsub_posInf_num, sub_self]
            rw [if_pos (by simp [jleB])]
          obtain ⟨ih1, ih2, ih3⟩ := ih posInf rest hrest
          rw [hstep]
          refine ⟨ih1, ?_, ?_⟩
          · intro t ht
            rcases List.mem_cons.mp ht with rfl | ht
            · exact ⟨⟨q, by rw [hbq, jmin_posInf_num]⟩, rfl⟩
            · exact ih2 t ht
          · simp only [List.map_cons, List.sum_cons]
            rw [hbq, jmin_posInf_num]
            show q + _ + _ = q + _
            rw [add_assoc, ih3]
        | num s =>
          have hs : 0 < s := by simpa [jgtB, jltB] using hgt
          by_cases hpop : q - min s q ≤ 0
          · -- lot exhausted: it is popped, matched quantity is q
            have hqm : min s q = q :=
              le_antisymm (min_le_right s q) (by linarith)
            have hstep : sellMatch sym price date (fuel + 1) (num s) (buy :: rest) =
                ((sellMatch sym price date fuel (num (s - min s q)) rest).1,
                 { symbol := sym, buyPrice := buy.price, sellPrice := price,
                   qty := num (min s q),
                   pl := jmul (jsub price buy.price) (num (min s q)),
                   plPercent := jmul (jdiv (jsub price buy.price) buy.price) (num 100),
                   cost := jmul buy.price (num (min s q)),
                   revenue := jmul price (num (min s q)),
                   buyDate := buy.date, sellDate := date } ::
                   (sellMatch sym price date fuel (num (s - min s q)) rest).2) := by
              simp only [sellMatch]
              rw [if_pos hgt]
              rw [hbq, jmin_num, jsub_num, jsub_num]
              rw [if_pos (by simp [jleB, hpop])]
            obtain ⟨ih1, ih2, ih3⟩ := ih (num (s - min s q)) rest hrest
            rw [hstep]
            refine ⟨ih1, ?_, ?_⟩
            · intro t ht
              rcases List.mem_cons.mp ht with rfl | ht
              · exact ⟨⟨min s q, rfl⟩, rfl⟩
              · exact ih2 t ht
            · simp only [List.map_cons, List.sum_cons]
              rw [hbq]
              show min s q + _ + _ = q + _
              rw [add_assoc, ih3, hqm]
          · -- lot not exhausted: the whole sell quantity s is matched
            have hlt : min s q < q := by linarith
            have hqm : min s q = s := by
              rcases min_cases s q with ⟨h2, _⟩ | ⟨h2, _⟩
              · exact h2
              · exfalso
                rw [h2] at hlt
                exact lt_irrefl q hlt
            have hnn : (0:ℚ) ≤ q - min s q := by linarith
            have hstep : sellMatch sym price date (fuel + 1) (num s) (buy :: rest) =
                ((sellMatch sym price date fuel (num (s - min s q))
                    ({ buy with qty := num (q - min s q) } :: rest)).1,
                 { symbol := sym, buyPrice := buy.price, sellPrice := price,
                   qty := num (min s q),
                   pl := jmul (jsub price buy.price) (num (min s q)),
                   plPercent := jmul (jdiv (jsub price buy.price) buy.price) (num 100),
                   cost := jmul buy.price (num (min s q)),
                   revenue := jmul price (num (min s q)),
                   buyDate := buy.date, sellDate := date } ::
                   (sellMatch sym price date fuel (num (s - min s q))
                    ({ buy with qty := num (q - min s q) } :: rest)).2) := by
              simp only [sellMatch]
              rw [if_pos hgt]
              rw [hbq, jmin_num, jsub_num, jsub_num]
              rw [if_neg (by simp [jleB, hpop])]
            have hqueue' : ∀ lot ∈ { buy with qty := num (q - min s q) } :: rest,
                ∃ q : ℚ, lot.qty = num q ∧ 0 ≤ q := by
              intro lot hl
              rcases List.mem_cons.mp hl with rfl | hl
              · exact ⟨q - min s q, rfl, hnn⟩
              · exact hrest lot hl
            obtain ⟨ih1, ih2, ih3⟩ := ih (num (s - min s q))
              ({ buy with qty := num (q - min s q) } :: rest) hqueue'
            rw [hstep]
            refine ⟨ih1, ?_, ?_⟩
            · intro t ht
              rcases List.mem_cons.mp ht with rfl | ht
              · exact ⟨⟨min s q, rfl⟩, rfl⟩
              · exact ih2 t ht
            · simp only [List.map_cons, List.sum_cons]
              rw [hbq]
              show min s q + _ + _ = q + _
              rw [add_assoc, ih3]
              simp only [List.map_cons, List.sum_cons]
              show min s q + (qval (num (q - min s q)) + _) = q + _
              rw [qval]
              ring
      · have hstep : sellMatch sym price date (fuel + 1) sellQty (buy :: rest) =
            (buy :: rest, []) := by
          simp only [sellMatch]
          rw [if_neg hgt]
        rw [hstep]
        exact ⟨hq, by simp, by simp⟩

/-- Sum of `filled_qty` over the buy orders of an order list. -/
def buySumQ (os : List Order) : ℚ :=
  ((os.filter fun o => decide (o.side = "buy")).map fun o => qval o.filled_qty).sum

theorem buySumQ_cons_buy (o : Order) (os : List Order) (h : o.side = "buy") :
    buySumQ (o :: os) = qval o.filled_qty + buySumQ os := by
  simp [buySumQ, h]

theorem buySumQ_cons_not_buy (o : Order) (os : List Order) (h : ¬ o.side = "buy") :
    buySumQ (o :: os) = buySumQ os := by
  simp [buySumQ, h]

theorem buySumQ_perm (l1 l2 : List Order) (h : List.Perm l1 l2) :
    buySumQ l1 = buySumQ l2 :=
  ((h.filter _).map _).sum_eq

theorem processOrder_buy (st : MatchState) (o : Order) (h : o.side = "buy") :
    processOrder st o =
      { st with buyQueue := st.buyQueue ++
          [{ qty := o.filled_qty, price := o.filled_avg_price, date := o.filled_at }] } := by
  simp [processOrder, h]

theorem processOrder_sell (st : MatchState) (o : Order) (h : o.side = "sell")
    (hnq : st.buyQueue ≠ []) :
    processOrder st o =
      { buyQueue := (sellMatch o.symbol o.filled_avg_price o.filled_at
          (st.buyQueue.length + 3) o.filled_qty st.buyQueue).1,
        trips := st.trips ++ (sellMatch o.symbol o.filled_avg_price o.filled_at
          (st.buyQueue.length + 3) o.filled_qty st.buyQueue).2 } := by
  have hnb : ¬ o.side = "buy" := by simp [h]
  rw [processOrder, if_neg hnb, if_pos ⟨h, hnq⟩]

theorem processOrder_other (st : MatchState) (o : Order) (hnb : ¬ o.side = "buy")
    (hns : ¬ (o.side = "sell" ∧ st.buyQueue ≠ [])) :
    processOrder st o = st := by
  rw [processOrder, if_neg hnb, if_neg hns]

theorem processOrders_invariant (s : String) :
    ∀ (os : List Order) (st : MatchState),
      (∀ o ∈ os, o.symbol = s) →
      (∀ o ∈ os, o.side = "buy" → ∃ q : ℚ, o.filled_qty = num q ∧ 0 ≤ q) →
      (∀ lot ∈ st.buyQueue, ∃ q : ℚ, lot.qty = num q ∧ 0 ≤ q) →
      (∀ lot ∈ (os.foldl processOrder st).buyQueue, ∃ q : ℚ, lot.qty = num q ∧ 0 ≤ q) ∧
      (∀ t ∈ (os.foldl processOrder st).trips,
        t ∈ st.trips ∨ ((∃ m : ℚ, t.qty = num m) ∧ t.symbol = s)) ∧
      ((os.foldl processOrder st).trips.map fun t => qval t.qty).sum +
        ((os.foldl processOrder st).buyQueue.map fun l => qval l.qty).sum =
        (st.trips.map fun t => qval t.qty).sum +
          (st.buyQueue.map fun l => qval l.qty).sum + buySumQ os
  | [], st, _, _, hqueue => by
    refine ⟨hqueue, fun t ht => Or.inl ht, ?_⟩
    simp [buySumQ]
  | o :: os, st, hsym, hbuys, hqueue => by
    have hsym' : ∀ o' ∈ os, o'.symbol = s :=
      fun o' h => hsym o' (List.mem_cons_of_mem o h)
    have hbuys' : ∀ o' ∈ os, o'.side = "buy" → ∃ q : ℚ, o'.filled_qty = num q ∧ 0 ≤ q :=
      fun o' h => hbuys o' (List.mem_cons_of_mem o h)
    rw [List.foldl_cons]
    by_cases hbuy : o.side = "buy"
    · obtain ⟨qo, hqo, hqo0⟩ := hbuys o (List.mem_cons_self o os) hbuy
      rw [processOrder_buy st o hbuy]
      have hqueue' : ∀ lot ∈ st.buyQueue ++
          [{ qty := o.filled_qty, price := o.filled_avg_price, date := o.filled_at }],
          ∃ q : ℚ, lot.qty = num q ∧ 0 ≤ q := by
        intro lot hl
        rcases List.mem_append.mp hl with hl | hl
        · exact hqueue lot hl
        · rw [List.mem_singleton.mp hl]
          exact ⟨qo, hqo, hqo0⟩
      obtain ⟨i1, i2, i3⟩ := processOrders_invariant s os
        { st with buyQueue := st.buyQueue ++
            [{ qty := o.filled_qty, price := o.filled_avg_price, date := o.filled_at }] }
        hsym' hbuys' hqueue'
      refine ⟨i1, i2, ?_⟩
      rw [i3, buySumQ_cons_buy o os hbuy]
      dsimp only
      rw [List.map_append, List.sum_append]
      simp only [List.map_cons, List.map_nil, List.sum_cons, List.sum_nil]
      ring
    · by_cases hsell : o.side = "sell" ∧ st.buyQueue ≠ []
      · rw [processOrder_sell st o hsell.1 hsell.2]
        obtain ⟨m1, m2, m3⟩ := sellMatch_invariant o.symbol o.filled_avg_price o.filled_at
          (st.buyQueue.length + 3) o.filled_qty st.buyQueue hqueue
        obtain ⟨i1, i2, i3⟩ := processOrders_invariant s os
          { buyQueue := (sellMatch o.symbol o.filled_avg_price o.filled_at
              (st.buyQueue.length + 3) o.filled_qty st.buyQueue).1,
            trips := st.trips ++ (sellMatch o.symbol o.filled_avg_price o.filled_at
              (st.buyQueue.length + 3) o.filled_qty st.buyQueue).2 }
          hsym' hbuys' m1
        refine ⟨i1, ?_, ?_⟩
        · intro t ht
          rcases i2 t ht with hmem | hP
          · rcases List.mem_append.mp hmem with hmem | hmem
            · exact Or.inl hmem
            · refine Or.inr ⟨(m2 t hmem).1, ?_⟩
              rw [(m2 t hmem).2]
              exact hsym o (List.mem_cons_self o os)
          · exact Or.inr hP
        · rw [i3, buySumQ_cons_not_buy o os hbuy]
          dsimp only
          rw [List.map_append, List.sum_append]
          linarith [m3]
      · rw [processOrder_other st o hbuy hsell]
        obtain ⟨i1, i2, i3⟩ := processOrders_invariant s os st hsym' hbuys' hqueue
        refine ⟨i1, i2, ?_⟩
        rw [i3, buySumQ_cons_not_buy o os hbuy]

theorem processSymbolOrders_spec (s : String) (os : List Order)
    (hsym : ∀ o ∈ os, o.symbol = s)
    (hbuys : ∀ o ∈ os, o.side = "buy" → ∃ q : ℚ, o.filled_qty = num q ∧ 0 ≤ q) :
    (∀ t ∈ (processSymbolOrders os).trips, (∃ m : ℚ, t.qty = num m) ∧ t.symbol = s) ∧
    ((processSymbolOrders os).trips.map fun t => qval t.qty).sum ≤ buySumQ os := by
  have hperm : List.Perm (sortByFilledAt os) os := stableSort_perm _ os
  have hsym2 : ∀ o ∈ sortByFilledAt os, o.symbol = s :=
    fun o h => hsym o (hperm.mem_iff.mp h)
  have hbuys2 : ∀ o ∈ sortByFilledAt os, o.side = "buy" →
      ∃ q : ℚ, o.filled_qty = num q ∧ 0 ≤ q :=
    fun o h => hbuys o (hperm.mem_iff.mp h)
  obtain ⟨i1, i2, i3⟩ := processOrders_invariant s (sortByFilledAt os) ⟨[], []⟩
    hsym2 hbuys2 (by intro lot hl; cases hl)
  constructor
  · intro t ht
    rcases i2 t ht with hmem | hP
    · cases hmem
    · exact hP
  · have hqnn : 0 ≤ ((processSymbolOrders os).buyQueue.map fun l => qval l.qty).sum := by
      apply List.sum_nonneg
      intro x hx
      obtain ⟨lot, hlot, rfl⟩ := List.mem_map.mp hx
      obtain ⟨q, hq, hq0⟩ := i1 lot hlot
      rw [hq]
      exact hq0
    have hbs : buySumQ (sortByFilledAt os) = buySumQ os := buySumQ_perm _ _ hperm
    have h3 : ((processSymbolOrders os).trips.map fun t => qval t.qty).sum +
        ((processSymbolOrders os).buyQueue.map fun l => qval l.qty).sum = buySumQ os := by
      have := i3
      simp only [List.map_nil, List.sum_nil] at this
      rw [zero_add, zero_add] at this
      rw [← hbs]
      exact this
    linarith

/-- Contents of the group with key `s` (the JS object property access
`ordersBySymbol[s]`, empty when absent). -/
def lookupGroup (gs : List (String × List Order)) (s : String) : List Order :=
  (gs.lookup s).getD []

theorem lookupg_cons_self (k : String) (v : List Order)
    (rest : List (String × List Order)) : ((k, v) :: rest).lookup k = some v := by
  simp [List.lookup]

theorem lookupg_cons_ne (k0 k' : String) (v : List Order)
    (rest : List (String × List Order)) (h : k' ≠ k0) :
    ((k0, v) :: rest).lookup k' = rest.lookup k' := by
  simp [List.lookup, beq_eq_false_iff_ne.mpr h]

theorem lookupGroup_cons_self (k : String) (v : List Order)
    (rest : List (String × List Order)) : lookupGroup ((k, v) :: rest) k = v := by
  simp [lookupGroup, lookupg_cons_self]

theorem lookupGroup_cons_ne (k0 k' : String) (v : List Order)
    (rest : List (String × List Order)) (h : k' ≠ k0) :
    lookupGroup ((k0, v) :: rest) k' = lookupGroup rest k' := by
  simp [lookupGroup, lookupg_cons_ne _ _ _ _ h]

theorem addToGroups_nil (o : Order) : addToGroups [] o = [(o.symbol, [o])] := rfl

theorem addToGroups_cons_self (s0 : String) (os0 : List Order)
    (rest : List (String × List Order)) (o : Order) (h : s0 = o.symbol) :
    addToGroups ((s0, os0) :: rest) o = (s0, os0 ++ [o]) :: rest := by
  simp [addToGroups, h]

theorem addToGroups_cons_ne (s0 : String) (os0 : List Order)
    (rest : List (String × List Order)) (o : Order) (h : ¬ s0 = o.symbol) :
    addToGroups ((s0, os0) :: rest) o = (s0, os0) :: addToGroups rest o := by
  simp [addToGroups, h]

theorem lookupGroup_addToGroups (gs : List (String × List Order)) (o : Order)
    (s : String) :
    lookupGroup (addToGroups gs o) s =
      if s = o.symbol then lookupGroup gs s ++ [o] else lookupGroup gs s := by
  induction gs with
  | nil =>
    rw [addToGroups_nil]
    by_cases h : s = o.symbol
    · rw [if_pos h, h, lookupGroup_cons_self]
      rfl
    · rw [if_neg h, lookupGroup_cons_ne _ _ _ _ h]
  | cons p rest ih =>
    obtain ⟨s0, os0⟩ := p
    by_cases h0 : s0 = o.symbol
    · rw [addToGroups_cons_self _ _ _ _ h0]
      by_cases h : s = s0
      · rw [h, lookupGroup_cons_self, lookupGroup_cons_self, if_pos h0]
      · rw [lookupGroup_cons_ne _ _ _ _ h, lookupGroup_cons_ne _ _ _ _ h,
          if_neg (fun hh : s = o.symbol => h (hh.trans h0.symm))]
    · rw [addToGroups_cons_ne _ _ _ _ h0]
      by_cases h : s = s0
      · rw [h, lookupGroup_cons_self, lookupGroup_cons_self,
          if_neg (fun hh : s0 = o.symbol => h0 hh)]
      · rw [lookupGroup_cons_ne _ _ _ _ h, lookupGroup_cons_ne _ _ _ _ h, ih]

theorem lookupGroup_foldl :
    ∀ (os : List Order) (gs : List (String × List Order)) (s : String),
      lookupGroup (os.foldl addToGroups gs) s =
        lookupGroup gs s ++ os.filter fun o => decide (o.symbol = s)
  | [], gs, s => by simp
  | o :: os, gs, s => by
    rw [List.foldl_cons, lookupGroup_foldl os _ s, lookupGroup_addToGroups]
    by_cases h : s = o.symbol
    · have hb : (decide (o.symbol = s)) = true := by simp [h]
      rw [if_pos h, List.filter_cons, hb]
      simp
    · have hb : (decide (o.symbol = s)) = false := by
        simp only [decide_eq_false_iff_not]
        exact fun hh => h hh.symm
      rw [if_neg h, List.filter_cons, hb]
      simp

theorem keys_addToGroups (gs : List (String × List Order)) (o : Order) :
    (addToGroups gs o).map Prod.fst =
      if o.symbol ∈ gs.map Prod.fst then gs.map Prod.fst
      else gs.map Prod.fst ++ [o.symbol] := by
  induction gs with
  | nil => simp [addToGroups_nil]
  | cons p rest ih =>
    obtain ⟨s0, os0⟩ := p
    by_cases h0 : s0 = o.symbol
    · rw [addToGroups_cons_self _ _ _ _ h0]
      have hmem : o.symbol ∈ ((s0, os0) :: rest).map Prod.fst := by
        simp [h0.symm]
      rw [if_pos hmem]
      simp
    · rw [addToGroups_cons_ne _ _ _ _ h0]
      by_cases hm : o.symbol ∈ rest.map Prod.fst
      · have hmem : o.symbol ∈ ((s0, os0) :: rest).map Prod.fst := by
          simp [hm]
        rw [if_pos hmem]
        simp only [List.map_cons, ih, if_pos hm]
      · have hmem : ¬ o.symbol ∈ ((s0, os0) :: rest).map Prod.fst := by
          simp only [List.map_cons, List.mem_cons]
          rintro (hh | hh)
          · exact h0 hh.symm
          · exact hm hh
        rw [if_neg hmem]
        simp only [List.map_cons, ih, if_neg hm, List.cons_append]

theorem nodup_keys_addToGroups (gs : List (String × List Order)) (o : Order)
    (h : (gs.map Prod.fst).Nodup) : ((addToGroups gs o).map Prod.fst).Nodup := by
  rw [keys_addToGroups]
  by_cases hm : o.symbol ∈ gs.map Prod.fst
  · rw [if_pos hm]
    exact h
  · rw [if_neg hm]
    simp [List.nodup_append, h, hm]

theorem nodup_keys_foldl :
    ∀ (os : List Order) (gs : List (String × List Order)),
      (gs.map Prod.fst).Nodup → ((os.foldl addToGroups gs).map Prod.fst).Nodup
  | [], _, h => h
  | o :: os, gs, h =>
    nodup_keys_foldl os (addToGroups gs o) (nodup_keys_addToGroups gs o h)

theorem lookupGroup_of_mem :
    ∀ (gs : List (String × List Order)) (s : String) (os : List Order),
      (gs.map Prod.fst).Nodup → (s, os) ∈ gs → lookupGroup gs s = os
  | [], _, _, _, hmem => absurd hmem (List.not_mem_nil _)
  | (s0, os0) :: rest, s, os, hnd, hmem => by
    have hnd2 : ¬ s0 ∈ rest.map Prod.fst ∧ (rest.map Prod.fst).Nodup := by
      rw [List.map_cons] at hnd
      exact List.nodup_cons.mp hnd
    rcases List.mem_cons.mp hmem with heq | hmem'
    · injection heq with h1 h2
      rw [h1, lookupGroup_cons_self, h2]
    · have hs : s ≠ s0 := by
        intro hh
        have hmm : s ∈ rest.map Prod.fst := List.mem_map.mpr ⟨(s, os), hmem', rfl⟩
        rw [hh] at hmm
        exact hnd2.1 hmm
      rw [lookupGroup_cons_ne _ _ _ _ hs]
      exact lookupGroup_of_mem rest s os hnd2.2 hmem'

theorem foldl_append_trips :
    ∀ (gs : List (String × List Order)) (acc : List Trip),
      gs.foldl (fun acc g => acc ++ (processSymbolOrders g.2).trips) acc =
        acc ++ (gs.map fun g => (processSymbolOrders g.2).trips).flatten
  | [], acc => by simp
  | g :: gs, acc => by
    rw [List.foldl_cons, foldl_append_trips gs _, List.map_cons, List.flatten_cons,
      List.append_assoc]

theorem filter_key_single (s : String) :
    ∀ (gs : List (String × List Order)), ((gs.map Prod.fst).Nodup) →
      (gs.filter fun p => decide (p.1 = s)) = [] ∨
      ∃ oss : List Order,
        (gs.filter fun p => decide (p.1 = s)) = [(s, oss)] ∧ (s, oss) ∈ gs
  | [], _ => Or.inl rfl
  | g :: gs, hnd => by
    obtain ⟨s0, os0⟩ := g
    rw [List.map_cons] at hnd
    obtain ⟨hs0, hnd'⟩ := List.nodup_cons.mp hnd
    by_cases h : s0 = s
    · right
      refine ⟨os0, ?_, ?_⟩
      · have hrest : (gs.filter fun p => decide (p.1 = s)) = [] := by
          rw [List.filter_eq_nil_iff]
          intro p hp
          simp only [decide_eq_true_eq]
          intro hps
          apply hs0
          rw [h, ← hps]
          exact List.mem_map.mpr ⟨p, hp, rfl⟩
        rw [List.filter_cons, show (decide ((s0, os0).1 = s)) = true by simp [h],
          if_pos rfl, hrest, h]
      · rw [← h]
        exact List.mem_cons_self _ _
    · rw [List.filter_cons, show (decide ((s0, os0).1 = s)) = false by simp [h],
        if_neg (by simp)]
      rcases filter_key_single s gs hnd' with hnil | ⟨oss, hsingle, hmem⟩
      · exact Or.inl hnil
      · exact Or.inr ⟨oss, hsingle, List.mem_cons_of_mem _ hmem⟩

theorem ordersBySymbol_mem_content (orders : List Order) (s' : String)
    (os' : List Order) (hmem : (s', os') ∈ ordersBySymbol orders) :
    os' = (orders.filter fun o => decide (o.status = "filled")).filter
      fun o => decide (o.symbol = s') := by
  have hnd : ((ordersBySymbol orders).map Prod.fst).Nodup := by
    rw [ordersBySymbol]
    exact nodup_keys_foldl _ [] (by simp)
  have hlk := lookupGroup_of_mem _ s' os' hnd hmem
  have h2 := lookupGroup_foldl (orders.filter fun o => decide (o.status = "filled")) [] s'
  rw [show lookupGroup ([] : List (String × List Order)) s' = [] from rfl,
    List.nil_append] at h2
  rw [ordersBySymbol] at hlk
  exact hlk.symm.trans h2

theorem group_spec (orders : List Order)
    (h : ∀ o ∈ orders, o.status = "filled" → o.side = "buy" →
      ∃ q : ℚ, o.filled_qty = num q ∧ 0 ≤ q) :
    ∀ p ∈ ordersBySymbol orders,
      (∀ t ∈ (processSymbolOrders p.2).trips,
        (∃ m : ℚ, t.qty = num m) ∧ t.symbol = p.1) ∧
      ((processSymbolOrders p.2).trips.map fun t => qval t.qty).sum ≤ buySumQ p.2 := by
  rintro ⟨s', os'⟩ hmem
  have hcontent := ordersBySymbol_mem_content orders s' os' hmem
  have hsym : ∀ o ∈ os', o.symbol = s' := by
    intro o ho
    rw [hcontent] at ho
    have := (List.mem_filter.mp ho).2
    simpa using this
  have hbuys : ∀ o ∈ os', o.side = "buy" →
      ∃ q : ℚ, o.filled_qty = num q ∧ 0 ≤ q := by
    intro o ho hside
    rw [hcontent] at ho
    obtain ⟨ho1, _⟩ := List.mem_filter.mp ho
    obtain ⟨ho2, hstat⟩ := List.mem_filter.mp ho1
    exact h o ho2 (by simpa using hstat) hside
  exact processSymbolOrders_spec s' os' hsym hbuys

theorem join_filter_bound (s : String) :
    ∀ (gs : List (String × List Order)),
      (∀ p ∈ gs,
        (∀ t ∈ (processSymbolOrders p.2).trips,
          (∃ m : ℚ, t.qty = num m) ∧ t.symbol = p.1) ∧
        ((processSymbolOrders p.2).trips.map fun t => qval t.qty).sum ≤ buySumQ p.2) →
      (∀ t ∈ (gs.map fun g => (processSymbolOrders g.2).trips).flatten.filter
        (fun t => decide (t.symbol = s)), ∃ m : ℚ, t.qty = num m) ∧
      ((((gs.map fun g => (processSymbolOrders g.2).trips).flatten.filter
        (fun t => decide (t.symbol = s))).map fun t => qval t.qty).sum ≤
        ((gs.filter fun p => decide (p.1 = s)).map fun p => buySumQ p.2).sum)
  | [], _ => ⟨by simp, by simp⟩
  | g :: gs, hp => by
    have hg := hp g (List.mem_cons_self g gs)
    have hgs := fun p hh => hp p (List.mem_cons_of_mem g hh)
    obtain ⟨ih1, ih2⟩ := join_filter_bound s gs hgs
    rw [List.map_cons, List.flatten_cons, List.filter_append]
    by_cases h : g.1 = s
    · have hkeep : (processSymbolOrders g.2).trips.filter
          (fun t => decide (t.symbol = s)) = (processSymbolOrders g.2).trips := by
        rw [List.filter_eq_self]
        intro t ht
        simp only [decide_eq_true_eq]
        rw [(hg.1 t ht).2, h]
      constructor
      · intro t ht
        rcases List.mem_append.mp ht with ht | ht
        · rw [hkeep] at ht
          exact (hg.1 t ht).1
        · exact ih1 t ht
      · rw [List.map_append, List.sum_append, hkeep,
          List.filter_cons, show (decide (g.1 = s)) = true by simp [h], if_pos rfl,
          List.map_cons, List.sum_cons]
        exact add_le_add hg.2 ih2
    · have hdrop : (processSymbolOrders g.2).trips.filter
          (fun t => decide (t.symbol = s)) = [] := by
        rw [List.filter_eq_nil_iff]
        intro t ht
        simp only [decide_eq_true_eq]
        rw [(hg.1 t ht).2]
        exact h
      constructor
      · intro t ht
        rcases List.mem_append.mp ht with ht | ht
        · rw [hdrop] at ht
          cases ht
        · exact ih1 t ht
      · rw [List.map_append, List.sum_append, hdrop,
          List.filter_cons, show (decide (g.1 = s)) = false by simp [h],
          if_neg (by simp)]
        simp only [List.map_nil, List.sum_nil, zero_add]
        exact ih2

theorem buySumQ_filter_eq (orders : List Order) (s : String) :
    buySumQ ((orders.filter fun o => decide (o.status = "filled")).filter
      fun o => decide (o.symbol = s)) =
      ((orders.filter fun o =>
        decide (o.status = "filled" ∧ o.side = "buy" ∧ o.symbol = s)).map
        fun o => qval o.filled_qty).sum := by
  rw [buySumQ, List.filter_filter, List.filter_filter]
  have hpred : ∀ o ∈ orders,
      (decide (o.side = "buy") && decide (o.symbol = s) && decide (o.status = "filled")) =
        decide (o.status = "filled" ∧ o.side = "buy" ∧ o.symbol = s) := by
    intro o _
    by_cases h1 : o.status = "filled" <;> by_cases h2 : o.symbol = s <;>
      by_cases h3 : o.side = "buy" <;> simp [h1, h2, h3]
  rw [List.filter_congr hpred]

/-- C2: for every input order sequence whose filled buy orders carry
well-formed non-negative quantities (the data contract of section 3),
and for every symbol, the matched quantities of that symbol's round
trips are finite numbers whose sum is at most the total filled quantity
of that symbol's filled buy orders. -/
theorem c2_matched_le_bought (orders : List Order) (s : String)
    (h : ∀ o ∈ orders, o.status = "filled" → o.side = "buy" →
      ∃ q : ℚ, o.filled_qty = num q ∧ 0 ≤ q) :
    (∀ t ∈ (roundTrips orders).filter fun t => decide (t.symbol = s),
      ∃ m : ℚ, t.qty = num m) ∧
    (((roundTrips orders).filter fun t => decide (t.symbol = s)).map
      fun t => qval t.qty).sum ≤
      ((orders.filter fun o =>
        decide (o.status = "filled" ∧ o.side = "buy" ∧ o.symbol = s)).map
        fun o => qval o.filled_qty).sum := by
  have hjoin : ((ordersBySymbol orders).foldl
      (fun acc g => acc ++ (processSymbolOrders g.2).trips) []) =
      ((ordersBySymbol orders).map fun g => (processSymbolOrders g.2).trips).flatten := by
    rw [foldl_append_trips]
    rfl
  have hperm : List.Perm (roundTrips orders)
      (((ordersBySymbol orders).map fun g => (processSymbolOrders g.2).trips).flatten) := by
    rw [roundTrips, hjoin]
    exact stableSort_perm _ _
  have hfperm := hperm.filter (fun t => decide (t.symbol = s))
  obtain ⟨j1, j2⟩ := join_filter_bound s (ordersBySymbol orders) (group_spec orders h)
  constructor
  · intro t ht
    exact j1 t (hfperm.mem_iff.mp ht)
  · have hsum : (((roundTrips orders).filter fun t => decide (t.symbol = s)).map
        fun t => qval t.qty).sum =
        ((((ordersBySymbol orders).map fun g => (processSymbolOrders g.2).trips).flatten.filter
          fun t => decide (t.symbol = s)).map fun t => qval t.qty).sum :=
      (hfperm.map _).sum_eq
    rw [hsum]
    have hnd : ((ordersBySymbol orders).map Prod.fst).Nodup := by
      rw [ordersBySymbol]
      exact nodup_keys_foldl _ [] (by simp)
    rcases filter_key_single s (ordersBySymbol orders) hnd with hnil | ⟨oss, hsingle, hmem⟩
    · rw [hnil] at j2
      simp only [List.map_nil, List.sum_nil] at j2
      refine le_trans j2 ?_
      apply List.sum_nonneg
      intro x hx
      obtain ⟨o, ho, rfl⟩ := List.mem_map.mp hx
      obtain ⟨ho1, hcond⟩ := List.mem_filter.mp ho
      have hcond2 := of_decide_eq_true hcond
      obtain ⟨q, hq, hq0⟩ := h o ho1 hcond2.1 hcond2.2.1
      rw [hq]
      exact hq0
    · rw [hsingle] at j2
      simp only [List.map_cons, List.map_nil, List.sum_cons, List.sum_nil, add_zero] at j2
      refine le_trans j2 ?_
      rw [ordersBySymbol_mem_content orders s oss hmem]
      exact le_of_eq (buySumQ_filter_eq orders s)

/-- Witness for `c2_matched_le_bought` at the worked three-order input. -/
theorem c2_matched_le_bought_witness :
    (∀ o ∈ exOrders, o.status = "filled" → o.side = "buy" →
      ∃ q : ℚ, o.filled_qty = num q ∧ 0 ≤ q) ∧
    ((∀ t ∈ (roundTrips exOrders).filter fun t => decide (t.symbol = "AAPL"),
      ∃ m : ℚ, t.qty = num m) ∧
    (((roundTrips exOrders).filter fun t => decide (t.symbol = "AAPL")).map
      fun t => qval t.qty).sum ≤
      ((exOrders.filter fun o =>
        decide (o.status = "filled" ∧ o.side = "buy" ∧ o.symbol = "AAPL")).map
        fun o => qval o.filled_qty).sum) := by
  have hh : ∀ o ∈ exOrders, o.status = "filled" → o.side = "buy" →
      ∃ q : ℚ, o.filled_qty = num q ∧ 0 ≤ q := by
    intro o ho
    fin_cases ho
    · exact fun _ _ => ⟨10, rfl, by norm_num⟩
    · exact fun _ _ => ⟨5, rfl, by norm_num⟩
    · intro _ hside
      exact absurd hside (by decide)
  exact ⟨hh, c2_matched_le_bought exOrders "AAPL" hh⟩
